import Mathlib

/-!
Verification development for the cpai outline-extraction subsystem.

The Python source under `cpai/` is shallowly embedded:

* `FunctionInfo` mirrors `cpai/outline/base.py`.
* `pythonExtract` mirrors `cpai/outline/python.py` (the `ast` standard-library
  parse is modelled as an `Option`-valued input: `none` is a parse failure, and
  `ast.get_docstring` is modelled as a field carrying the docstring text).
* `jsExtract` mirrors `cpai/outline/javascript.py` (the esprima parse is an
  `Option`-valued input; AST nodes are modelled as structured values whose
  child attributes are walked by the visitor).
* `rustExtract` and `solidityExtract` mirror `cpai/outline/rust.py` and
  `cpai/outline/solidity.py`; their regular expressions are hand-compiled into
  backtracking recognisers with Python `re.search` semantics (leftmost match,
  ordered alternation, greedy repetition with backtracking).
* `formatFunctionsAsTree`, `formatTreeWithOutlines` mirror the tree renderer in
  `cpai/main.py`.  The source accumulates pre-joined multi-line strings into a
  `lines` list and joins with a newline; this is modelled as a flat list of
  single lines, whose newline-join yields the identical string.

Character classes (`\s`, `\w`, `str.strip`, `str.lower`) are modelled at their
ASCII meaning, which coincides with Python on the ASCII inputs considered here.
-/

namespace Cpai

/-- Python `\s` (ASCII range): space, tab, newline, carriage return,
vertical tab, form feed. -/
def pyIsWs (c : Char) : Bool :=
  c = ' ' || c = '\t' || c = '\n' || c = '\r' || c = '\x0b' || c = '\x0c'

/-- Python `\w` (ASCII range): letters, digits, underscore. -/
def pyIsWord (c : Char) : Bool :=
  (('a' ≤ c && c ≤ 'z') || ('A' ≤ c && c ≤ 'Z') || ('0' ≤ c && c ≤ '9') || c = '_')

/-- ASCII lower-casing of one character (Python `str.lower` on ASCII). -/
def lowerChar (c : Char) : Char :=
  if 'A' ≤ c && c ≤ 'Z' then Char.ofNat (c.toNat + 32) else c

/-- ASCII lower-casing of a string (Python `str.lower` on ASCII). -/
def lowerStr (s : String) : String :=
  ⟨s.data.map lowerChar⟩

/-- Python `s.startswith(p)`. -/
def strStarts (p s : String) : Bool :=
  p.data.isPrefixOf s.data

/-- Drop leading ASCII whitespace. -/
def dropWsLeft (l : List Char) : List Char :=
  l.dropWhile pyIsWs

/-- Python `str.strip()` (ASCII whitespace). -/
def pyStrip (s : String) : String :=
  ⟨(dropWsLeft (dropWsLeft s.data.reverse).reverse)⟩

/-- Python `str.split('\n')`: split at every newline, keeping empty pieces
(including a trailing one). -/
def splitNlChars : List Char → List (List Char)
  | [] => [[]]
  | c :: r =>
    if c = '\n' then [] :: splitNlChars r
    else
      match splitNlChars r with
      | [] => [[c]]
      | l :: ls => (c :: l) :: ls

/-- Python `str.split('\n')` on `String`s. -/
def splitNl (s : String) : List String :=
  (splitNlChars s.data).map (fun l => ⟨l⟩)

/-- Python `str.splitlines()` for newline-terminated text: like
`split('\n')` but without the trailing empty piece (`""` yields `[]`).
Carriage returns are not treated as terminators; the sources handled here are
newline-terminated. -/
def pySplitlines (s : String) : List String :=
  let ls := (splitNlChars s.data).map (fun l => (⟨l⟩ : String))
  if ls.getLast? = some "" then ls.dropLast else ls

/-- Python `'.'.join(parts)` (and the general `sep.join`). -/
def pyJoin (sep : String) : List String → String
  | [] => ""
  | [x] => x
  | x :: y :: r => x ++ sep ++ pyJoin sep (y :: r)

/-- First line of a string: the part before the first newline
(Python `s.split('\n')[0]`). -/
def firstLine (s : String) : String :=
  ⟨s.data.takeWhile (· ≠ '\n')⟩

/-- The part of a string after its first dot
(Python `s.split('.', 1)[1]`, defined when a dot is present). -/
def afterFirstDot (s : String) : String :=
  ⟨(s.data.dropWhile (· ≠ '.')).drop 1⟩

/-- The part of a string before its first dot (Python `s.split('.', 1)[0]`). -/
def beforeFirstDot (s : String) : String :=
  ⟨s.data.takeWhile (· ≠ '.')⟩

/-- Whether a string contains a dot (Python `'.' in s`). -/
def containsDot (s : String) : Bool :=
  s.data.any (· = '.')

/-- Whether `sub` occurs inside `l`. -/
def charsContain (sub : List Char) : List Char → Bool
  | [] => sub.isPrefixOf []
  | c :: r => sub.isPrefixOf (c :: r) || charsContain sub r

/-- Whether a string contains `sub` as a substring (Python `sub in s`). -/
def containsSub (sub s : String) : Bool :=
  charsContain sub.data s.data

/-- Python truthiness of an optional string (`None` and `""` are falsy). -/
def pyTruthy : Option String → Bool
  | none => false
  | some s => s ≠ ""

/-- The record stored for one extracted declaration
(`FunctionInfo` in `cpai/outline/base.py`; `args` is merged into
`parameters` as in its constructor). -/
structure FunctionInfo where
  name : String
  line_number : Nat := 0
  parameters : Option String := none
  leading_comment : Option String := none
  is_export : Bool := false
  is_default_export : Bool := false
  node_type : String := "function"
deriving DecidableEq

/-! ## Python extractor (`cpai/outline/python.py`)

The `ast` node sequence is modelled as a sibling-chained tree so that the
visitor is structurally recursive: `next` is the following sibling and
`body` the child sequence, exactly the order `ast.NodeVisitor` walks.  The
`docstring` field carries what `ast.get_docstring` returns for the node. -/

inductive PyNode where
  | nil
  | classDef (name : String) (lineno : Nat) (docstring : Option String)
      (body : PyNode) (next : PyNode)
  | functionDef (name : String) (lineno : Nat) (docstring : Option String)
      (args : List String) (body : PyNode) (next : PyNode)
  | asyncFunctionDef (name : String) (lineno : Nat) (docstring : Option String)
      (args : List String) (body : PyNode) (next : PyNode)
  | other (body : PyNode) (next : PyNode)

/-- Mutable visitor state of `PythonOutlineExtractor.extract_functions`. -/
structure PyState where
  current_path : List String
  seen_names : List String
  functions : List FunctionInfo

/-- `get_docstring` of `python.py`: the first line of the (truthy) docstring,
stripped.  The `isinstance` guard is discharged by construction since only
class/function nodes carry a docstring here. -/
def pyGetDocstring : Option String → Option String
  | none => none
  | some d => if d = "" then none else some (pyStrip (firstLine d))

/-- `get_full_path` of `python.py`: dot-join of the enclosing path plus the
name, with empty components filtered out. -/
def pyGetFullPath (path : List String) (name : String) : String :=
  pyJoin "." ((path ++ [name]).filter (· ≠ ""))

/-- `should_include_function` of `python.py`. -/
def pyShouldInclude (name : String) : Bool :=
  !(strStarts "_" name ||
    (name = "setUp" || name = "tearDown" || name = "setUpClass" ||
     name = "tearDownClass"))

/-- `add_function` of `python.py`. -/
def pyAddFunction (name : String) (lineno : Nat) (docstring : Option String)
    (st : PyState) : PyState :=
  if name = "" then st
  else if !pyShouldInclude name then st
  else
    let full_name := pyGetFullPath st.current_path name
    if full_name ∈ st.seen_names then st
    else
      { st with
        seen_names := full_name :: st.seen_names
        functions := st.functions ++
          [{ name := full_name, line_number := lineno
             leading_comment := pyGetDocstring docstring }] }

/-- The visitor of `python.py` (`visit_ClassDef` / `visit_FunctionDef` /
`visit_AsyncFunctionDef`, other nodes via `generic_visit`).  A class appends
its name to `current_path`, records itself, visits its body and restores the
path; functions record themselves and visit their body without touching the
path. -/
def pyWalk : PyNode → PyState → PyState
  | .nil, st => st
  | .classDef name ln doc body next, st =>
    let st1 := { st with current_path := st.current_path ++ [name] }
    let st2 := pyAddFunction name ln doc st1
    let st3 := pyWalk body st2
    pyWalk next { st3 with current_path := st.current_path }
  | .functionDef name ln doc _args body next, st =>
    pyWalk next (pyWalk body (pyAddFunction name ln doc st))
  | .asyncFunctionDef name ln doc _args body next, st =>
    pyWalk next (pyWalk body (pyAddFunction name ln doc st))
  | .other body next, st =>
    pyWalk next (pyWalk body st)

/-- `PythonOutlineExtractor.extract_functions`: the `ast.parse` outcome is the
`Option` argument (`none` = parse failure, caught and logged, returning the
accumulated — still empty — list). -/
def pythonExtract (parsed : Option PyNode) : List FunctionInfo :=
  match parsed with
  | none => []
  | some module => (pyWalk module ⟨[], [], []⟩).functions

/-! ## JavaScript/TypeScript extractor (`cpai/outline/javascript.py`)

The esprima AST is modelled as a sibling-chained tree of nodes tagged with
their `type` string; `children` is the chain of child nodes that the
`visit_node` attribute walk recurses into, `next` the following sibling.
A `VariableDeclaration` additionally carries the fields its branch reads from
each declarator (`decls`).  The `comment` field carries the result of
`get_leading_comment` for the node (the esprima comment attachment that the
helper postprocesses is not part of the repository).  -/

structure JsDecl where
  idName : Option String
  initType : Option String
  line : Nat
  comment : Option String

inductive JsNode where
  | nil
  | node (ntype : String) (idName keyName : Option String) (line : Nat)
      (comment : Option String) (decls : List JsDecl)
      (children : JsNode) (next : JsNode)

/-- Mutable visitor state of `JavaScriptOutlineExtractor.extract_functions`. -/
structure JsState where
  current_class : Option String
  current_path : List String
  seen_names : List String
  functions : List FunctionInfo

/-- `get_full_path` of `javascript.py` (filter out empty strings, dot-join). -/
def jsGetFullPath (path : List String) (name : String) : String :=
  pyJoin "." ((path ++ [name]).filter (· ≠ ""))

/-- The fixed stoplist of `add_function` in `javascript.py`. -/
def jsStoplist : List String :=
  ["getState", "getContext", "send", "transition", "handleError", "cleanup",
   "componentDidMount", "componentDidUpdate", "componentWillUnmount", "render",
   "mutate", "mutateAsync", "reset", "onMutate", "onError", "onSettled",
   "onSuccess", "queryFn", "mutationFn", "backoff", "shouldRetry"]

/-- `add_function` of `javascript.py`. -/
def jsAddFunction (name : String) (line : Nat) (comment : Option String)
    (st : JsState) : JsState :=
  if name = "" then st
  else if strStarts "_" name || strStarts "use" name || name ∈ jsStoplist then st
  else
    let full_name := jsGetFullPath st.current_path name
    if full_name ∈ st.seen_names then st
    else
      { st with
        seen_names := full_name :: st.seen_names
        functions := st.functions ++
          [{ name := full_name, line_number := line
             leading_comment := comment }] }

/-- The per-declarator step of the `VariableDeclaration` branch of
`visit_node`: a declarator whose initialiser is an arrow or anonymous
function expression and that has a name extends the path and is recorded.
Note the path extension accumulates across the declarators of one
declaration, as in the source. -/
def jsVarStep (s : JsState) (d : JsDecl) : JsState :=
  match d.initType, d.idName with
  | some it, some n =>
    if it = "ArrowFunctionExpression" || it = "FunctionExpression" then
      jsAddFunction n d.line d.comment
        { s with current_path := s.current_path ++ [n] }
    else s
  | _, _ => s

/-- `visit_node` of `javascript.py`: dispatch on the node type (possibly
extending the class/path context and recording a declaration), then visit the
children, then restore the saved class and path (the `finally` block). -/
def jsWalk : JsNode → JsState → JsState
  | .nil, st => st
  | .node ntype idName keyName line comment decls children next, st =>
    let st1 :=
      if ntype = "ClassDeclaration" then
        match idName with
        | some n =>
          jsAddFunction n line comment
            { st with current_class := some n
                      current_path := st.current_path ++ [n] }
        | none => st
      else if ntype = "MethodDefinition" then
        match keyName with
        | some n =>
          let s :=
            if pyTruthy st.current_class then
              { st with current_path := st.current_path ++ [n] }
            else st
          jsAddFunction n line comment s
        | none => st
      else if ntype = "FunctionDeclaration" then
        match idName with
        | some n =>
          jsAddFunction n line comment
            { st with current_path := st.current_path ++ [n] }
        | none => st
      else if ntype = "VariableDeclaration" then
        decls.foldl jsVarStep st
      else st
    let st2 := jsWalk children st1
    jsWalk next
      { st2 with current_class := st.current_class
                 current_path := st.current_path }

/-- `JavaScriptOutlineExtractor.extract_functions`: the `esprima.parseScript`
outcome is the `Option` argument (`none` = parse failure, caught and logged,
yielding the accumulated — still empty — list). -/
def jsExtract (parsed : Option JsNode) : List FunctionInfo :=
  match parsed with
  | none => []
  | some ast => (jsWalk ast ⟨none, [], [], []⟩).functions

/-! ## Pattern recognisers

The Rust and Solidity extractors drive `re.search` with fixed patterns.  Each
pattern is hand-compiled into a recogniser built from the combinators below,
which reproduce Python regex semantics for the constructs used: ordered
alternation (`<|>`), greedy repetition with backtracking (recurse-first, then
yield), optional groups tried before being skipped, and leftmost-position
search.  Each recogniser returns the text of the capture group. -/

/-- Opening and closing brace characters. -/
def lbrace : Char := Char.ofNat 123

def rbrace : Char := Char.ofNat 125

/-- Greedy `c*` for a character class: consume as much as possible, then
backtrack character by character into the continuation. -/
def clsStar (p : Char → Bool) : List Char → (List Char → Option α) → Option α
  | [], k => k []
  | c :: r, k => (if p c then clsStar p r k else none) <|> k (c :: r)

/-- Greedy `c+` for a character class. -/
def clsPlus (p : Char → Bool) (l : List Char) (k : List Char → Option α) :
    Option α :=
  match l with
  | [] => none
  | c :: r => if p c then clsStar p r k else none

/-- Greedy capturing `c*` (continuation receives the captured text). -/
def captStar (p : Char → Bool) (acc : List Char) :
    List Char → (String → List Char → Option α) → Option α
  | [], k => k ⟨acc.reverse⟩ []
  | c :: r, k =>
    (if p c then captStar p (c :: acc) r k else none) <|> k ⟨acc.reverse⟩ (c :: r)

/-- Greedy capturing `c+`. -/
def captPlus (p : Char → Bool) (l : List Char)
    (k : String → List Char → Option α) : Option α :=
  match l with
  | [] => none
  | c :: r => if p c then captStar p [c] r k else none

/-- Literal match. -/
def lit (s : String) (l : List Char) : Option (List Char) :=
  if s.data.isPrefixOf l then some (l.drop s.data.length) else none

/-- Optional group `(?:g)?`: try the group first, then skip it. -/
def optGrp (g : List Char → (List Char → Option α) → Option α)
    (l : List Char) (k : List Char → Option α) : Option α :=
  g l k <|> k l

/-- `re.search`: try the recogniser at each position, leftmost first. -/
def reSearch (at_ : List Char → Option β) : List Char → Option β
  | [] => at_ []
  | c :: r => at_ (c :: r) <|> reSearch at_ (r)

/-! ### Rust patterns (`cpai/outline/rust.py`) -/

/-- The optional `pub` prefix `(?:pub(?:\([^)]*\))?\s+)?` shared by the
`struct`/`enum`/`trait`/`fn` patterns of `rust.py`. -/
def rustPubOpt (l : List Char) (k : List Char → Option α) : Option α :=
  (match lit "pub" l with
   | none => none
   | some l1 =>
     optGrp
       (fun l2 k2 =>
         match lit "(" l2 with
         | none => none
         | some l3 =>
           clsStar (· ≠ ')') l3 (fun l4 =>
             match lit ")" l4 with
             | none => none
             | some l5 => k2 l5))
       l1 (fun l6 => clsPlus pyIsWs l6 k)) <|> k l

/-- `(?:pub(?:\([^)]*\))?\s+)?KW\s+(\w+)` at one position — the shape of
`STRUCT_PATTERN`, `ENUM_PATTERN` and `TRAIT_PATTERN` in `rust.py`. -/
def rustKwAt (kw : String) (l : List Char) : Option String :=
  rustPubOpt l (fun l1 =>
    match lit kw l1 with
    | none => none
    | some l2 =>
      clsPlus pyIsWs l2 (fun l3 =>
        captPlus pyIsWord l3 (fun w _ => some w)))

/-- `IMPL_PATTERN` of `rust.py`:
`impl(?:\s*<[^>]+>)?\s+(?:(?:dyn\s+)?[^{]+\s+for\s+)?(\w+)` at one position. -/
def rustImplAt (l : List Char) : Option String :=
  match lit "impl" l with
  | none => none
  | some l1 =>
    optGrp
      (fun l2 k2 =>
        clsStar pyIsWs l2 (fun l3 =>
          match lit "<" l3 with
          | none => none
          | some l4 =>
            clsPlus (· ≠ '>') l4 (fun l5 =>
              match lit ">" l5 with
              | none => none
              | some l6 => k2 l6)))
      l1 (fun l7 =>
        clsPlus pyIsWs l7 (fun l8 =>
          optGrp
            (fun l9 k9 =>
              optGrp
                (fun la ka =>
                  match lit "dyn" la with
                  | none => none
                  | some lb => clsPlus pyIsWs lb ka)
                l9 (fun lc =>
                  clsPlus (· ≠ lbrace) lc (fun ld =>
                    clsPlus pyIsWs ld (fun le =>
                      match lit "for" le with
                      | none => none
                      | some lf => clsPlus pyIsWs lf k9))))
            l8 (fun lg => captPlus pyIsWord lg (fun w _ => some w))))

/-- `FUNCTION_PATTERN` of `rust.py`:
`(?:pub(?:\([^)]*\))?\s+)?(?:async\s+)?(?:const\s+)?fn\s+(\w+)\s*[(<]`
at one position. -/
def rustFnAt (l : List Char) : Option String :=
  rustPubOpt l (fun l1 =>
    optGrp
      (fun l2 k2 =>
        match lit "async" l2 with
        | none => none
        | some la => clsPlus pyIsWs la k2)
      l1 (fun l3 =>
        optGrp
          (fun l4 k4 =>
            match lit "const" l4 with
            | none => none
            | some lb => clsPlus pyIsWs lb k4)
          l3 (fun l5 =>
            match lit "fn" l5 with
            | none => none
            | some l6 =>
              clsPlus pyIsWs l6 (fun l7 =>
                captPlus pyIsWord l7 (fun w l8 =>
                  clsStar pyIsWs l8 (fun l9 =>
                    match l9 with
                    | c :: _ => if c = '(' || c = '<' then some w else none
                    | [] => none))))))

/-- `re.search(STRUCT_PATTERN, line)` etc., returning group 1. -/
def rustSearchKw (kw : String) (line : String) : Option String :=
  reSearch (rustKwAt kw) line.data

def rustSearchImpl (line : String) : Option String :=
  reSearch rustImplAt line.data

def rustSearchFn (line : String) : Option String :=
  reSearch rustFnAt line.data

/-- `re.sub(r'///\s*', '', line)`: delete every `///` marker together with the
whitespace following it.  The fuel argument (initialised to more than the
length) only serves structural recursion; every step consumes at least one
character. -/
def subDocAux : Nat → List Char → List Char
  | 0, l => l
  | _ + 1, [] => []
  | f + 1, c :: r =>
    if ("///".data).isPrefixOf (c :: r) then
      subDocAux f (dropWsLeft ((c :: r).drop 3))
    else c :: subDocAux f r

def subDocMarkers (l : List Char) : List Char :=
  subDocAux (l.length + 1) l

/-- `re.sub(r'//\s*|/\*|\*/|\*\s*', '', comment)`: delete comment markers,
alternatives tried in the pattern's order at each position. -/
def subCmtAux : Nat → List Char → List Char
  | 0, l => l
  | _ + 1, [] => []
  | f + 1, c :: r =>
    if ("//".data).isPrefixOf (c :: r) then subCmtAux f (dropWsLeft r.tail)
    else if ("/*".data).isPrefixOf (c :: r) then subCmtAux f r.tail
    else if ("*/".data).isPrefixOf (c :: r) then subCmtAux f r.tail
    else if c = '*' then subCmtAux f (dropWsLeft r)
    else c :: subCmtAux f r

def subCmtMarkers (l : List Char) : List Char :=
  subCmtAux (l.length + 1) l

/-- The characters after the first `*/` in `l`, if any.  The block-comment
body `(?:[^*]|\*[^/])*` cannot run across a `*/`, so the regex necessarily
closes at the first occurrence. -/
def afterBlockClose : List Char → Option (List Char)
  | [] => none
  | '*' :: '/' :: r => some r
  | _ :: r => afterBlockClose r

/-- `COMMENT_PATTERN` of `rust.py` at one position:
`(?://[^\n]*|/\*(?:[^*]|\*[^/])*\*/)\s*$`.  On a single line, the `//`
alternative swallows the rest of the line; the block alternative requires
only whitespace after the closing `*/`.  Either way group 0 is the whole
remaining suffix. -/
def rustCommentAt (l : List Char) : Option (List Char) :=
  if ("//".data).isPrefixOf l then some l
  else
    match lit "/*" l with
    | none => none
    | some rest =>
      match afterBlockClose rest with
      | some tail => if tail.all pyIsWs then some l else none
      | none => none

def rustCommentSearch (s : String) : Option String :=
  (reSearch rustCommentAt s.data).map (fun l => ⟨l⟩)

/-- The inner loop of `get_leading_comment` in `rust.py`: walk upwards from
line `i`, skipping blank lines, collecting cleaned `///` doc comments (in
source order), stopping at the first other line. -/
def rustDocCollect (lines : List String) : Nat → List String → List String
  | 0, acc =>
    let line := pyStrip ((lines.get? 0).getD "")
    if line = "" then acc
    else if strStarts "///" line then (⟨subDocMarkers line.data⟩ : String) :: acc
    else acc
  | i + 1, acc =>
    let line := pyStrip ((lines.get? (i + 1)).getD "")
    if line = "" then rustDocCollect lines i acc
    else if strStarts "///" line then
      rustDocCollect lines i ((⟨subDocMarkers line.data⟩ : String) :: acc)
    else acc

/-- `get_leading_comment` of `rust.py`: prefer a run of `///` doc comments
above the line; otherwise fall back to a trailing comment on the immediately
preceding line, cleaned of its markers and stripped. -/
def rustGetLeadingComment (lines : List String) (line_num : Nat) :
    Option String :=
  if line_num = 0 then none
  else
    let docs := rustDocCollect lines (line_num - 1) []
    if docs ≠ [] then some (pyJoin " " docs)
    else
      let prev := pyStrip ((lines.get? (line_num - 1)).getD "")
      match rustCommentSearch prev with
      | some c => some (pyStrip ⟨subCmtMarkers c.data⟩)
      | none => none

/-- Mutable state of `RustOutlineExtractor.extract_functions`. -/
structure RustState where
  current_type : Option String
  current_impl : Option String
  current_path : List String
  seen_names : List String
  functions : List FunctionInfo
  in_block_comment : Bool

/-- The shared `if name not in seen_names: seen_names.add(name);
functions.append(...)` step of `rust.py`. -/
def rustRecord (fi : FunctionInfo) (st : RustState) : RustState :=
  if fi.name ∈ st.seen_names then st
  else
    { st with
      seen_names := fi.name :: st.seen_names
      functions := st.functions ++ [fi] }

/-- One iteration of the line loop in `rust.py` (strip, block-comment
book-keeping, then the `struct`/`enum`/`trait`/`impl`/`fn` matches in
order, each `continue`-ing when it fires). -/
def rustLine (lines : List String) (idx : Nat) (raw : String)
    (st : RustState) : RustState :=
  let line := pyStrip raw
  if line = "" then st
  else
    let b1 := st.in_block_comment || containsSub "/*" line
    if containsSub "*/" line then { st with in_block_comment := false }
    else if b1 then { st with in_block_comment := b1 }
    else
      let st := { st with in_block_comment := b1 }
      match rustSearchKw "struct" line with
      | some name =>
        if !strStarts "_" name then
          rustRecord
            { name := name, line_number := idx + 1, node_type := "struct"
              leading_comment := rustGetLeadingComment lines idx }
            { st with current_type := some name, current_path := [name] }
        else st
      | none =>
      match rustSearchKw "enum" line with
      | some name =>
        if !strStarts "_" name then
          rustRecord
            { name := name, line_number := idx + 1, node_type := "enum"
              leading_comment := rustGetLeadingComment lines idx }
            { st with current_type := some name, current_path := [name] }
        else st
      | none =>
      match rustSearchKw "trait" line with
      | some name =>
        if !strStarts "_" name then
          rustRecord
            { name := name, line_number := idx + 1, node_type := "trait"
              leading_comment := rustGetLeadingComment lines idx }
            { st with current_type := some name, current_path := [name] }
        else st
      | none =>
      match rustSearchImpl line with
      | some nm =>
        { st with current_impl := some nm, current_path := [nm] }
      | none =>
      match rustSearchFn line with
      | some name =>
        if !strStarts "_" name || name = "__init__" then
          rustRecord
            { name :=
                if st.current_path ≠ [] then
                  pyJoin "." st.current_path ++ "." ++ name
                else name
              line_number := idx + 1
              node_type :=
                if pyTruthy st.current_impl then "method" else "function"
              leading_comment := rustGetLeadingComment lines idx }
            st
        else st
      | none => st

/-- `enumerate`. -/
def enumFrom : Nat → List α → List (Nat × α)
  | _, [] => []
  | i, x :: r => (i, x) :: enumFrom (i + 1) r

def rustLoop (lines : List String) : List (Nat × String) → RustState → RustState
  | [], st => st
  | (i, l) :: rest, st => rustLoop lines rest (rustLine lines i l st)

/-- `RustOutlineExtractor.extract_functions`. -/
def rustExtract (content : String) : List FunctionInfo :=
  (rustLoop (pySplitlines content) (enumFrom 0 (pySplitlines content))
    ⟨none, none, [], [], [], false⟩).functions

/-! ### Solidity extractor (`cpai/outline/solidity.py`) -/

/-- `CONTRACT_PATTERN` of `solidity.py`:
`(?:abstract\s+)?contract\s+(\w+)` at one position. -/
def solContractAt (l : List Char) : Option String :=
  optGrp
    (fun l1 k1 =>
      match lit "abstract" l1 with
      | none => none
      | some l2 => clsPlus pyIsWs l2 k1)
    l (fun l3 =>
      match lit "contract" l3 with
      | none => none
      | some l4 =>
        clsPlus pyIsWs l4 (fun l5 => captPlus pyIsWord l5 (fun w _ => some w)))

/-- `INTERFACE_PATTERN` of `solidity.py`: `interface\s+(\w+)` at one
position. -/
def solInterfaceAt (l : List Char) : Option String :=
  match lit "interface" l with
  | none => none
  | some l1 =>
    clsPlus pyIsWs l1 (fun l2 => captPlus pyIsWord l2 (fun w _ => some w))

/-- `FUNCTION_PATTERN` of `solidity.py`:
`(?:function|constructor|fallback|receive)\s+(?:(\w+)\s*)?[({]` at one
position; the optional capture group may be absent (`none`). -/
def solFunctionAt (l : List Char) : Option (Option String) :=
  match (lit "function" l) <|> (lit "constructor" l) <|>
        (lit "fallback" l) <|> (lit "receive" l) with
  | none => none
  | some l1 =>
    clsPlus pyIsWs l1 (fun l2 =>
      (captPlus pyIsWord l2 (fun w l3 =>
        clsStar pyIsWs l3 (fun l4 =>
          match l4 with
          | c :: _ => if c = '(' || c = lbrace then some (some w) else none
          | [] => none))) <|>
      (match l2 with
       | c :: _ => if c = '(' || c = lbrace then some none else none
       | [] => none))

/-- `get_full_path` of `solidity.py`. -/
def solGetFullPath (path : List String) (name : String) : String :=
  pyJoin "." ((path ++ [name]).filter (· ≠ ""))

/-- `should_include_function` of `solidity.py`. -/
def solShouldInclude (name : String) : Bool :=
  !(name ≠ "" && (strStarts "_" name || name = "constructor"))

/-- Mutable state of `SolidityOutlineExtractor.extract_functions`. -/
structure SolState where
  current_contract : Option String
  current_path : List String
  seen_names : List String
  functions : List FunctionInfo

/-- The shared dedup-and-append step of `solidity.py`. -/
def solRecord (fi : FunctionInfo) (st : SolState) : SolState :=
  if fi.name ∈ st.seen_names then st
  else
    { st with
      seen_names := fi.name :: st.seen_names
      functions := st.functions ++ [fi] }

/-- One iteration of the line loop in `solidity.py`: first the
contract/interface patterns (first match wins), then the function pattern on
the same line. -/
def solLine (idx : Nat) (line : String) (st : SolState) : SolState :=
  let st1 :=
    match (reSearch solContractAt line.data) <|>
          (reSearch solInterfaceAt line.data) with
    | some name =>
      solRecord { name := name, line_number := idx + 1 }
        { st with current_contract := some name, current_path := [name] }
    | none => st
  match reSearch solFunctionAt line.data with
  | some cap =>
    let name := cap.getD "fallback"
    if solShouldInclude name then
      solRecord
        { name := solGetFullPath st1.current_path name, line_number := idx + 1 }
        st1
    else st1
  | none => st1

def solLoop : List (Nat × String) → SolState → SolState
  | [], st => st
  | (i, l) :: rest, st => solLoop rest (solLine i l st)

/-- `SolidityOutlineExtractor.extract_functions`. -/
def solidityExtract (content : String) : List FunctionInfo :=
  (solLoop (enumFrom 0 (splitNl content)) ⟨none, [], [], []⟩).functions

/-! ## String ordering

Python compares strings lexicographically by code point; `lexLe` is that
order (`a <= b`).  Sorting is by `List.insertionSort`, which — like Python's
`sorted` — is stable, so the two agree on every input. -/

def lexLe : List Char → List Char → Bool
  | [], _ => true
  | _ :: _, [] => false
  | a :: as, b :: bs => if a < b then true else if a = b then lexLe as bs else false

theorem lexLe_cons (x y : Char) (xs ys : List Char) :
    lexLe (x :: xs) (y :: ys) =
      if x < y then true else if x = y then lexLe xs ys else false := rfl

theorem lexLe_refl (l : List Char) : lexLe l l = true := by
  induction l with
  | nil => rfl
  | cons a as ih => rw [lexLe_cons, if_neg (lt_irrefl a), if_pos rfl]; exact ih

theorem lexLe_total (a b : List Char) : lexLe a b = true ∨ lexLe b a = true := by
  induction a generalizing b with
  | nil => left; rfl
  | cons x xs ih =>
    cases b with
    | nil => right; rfl
    | cons y ys =>
      rcases lt_trichotomy x y with h | h | h
      · left; rw [lexLe_cons, if_pos h]
      · subst h
        rcases ih ys with h2 | h2
        · left; rw [lexLe_cons, if_neg (lt_irrefl x), if_pos rfl]; exact h2
        · right; rw [lexLe_cons, if_neg (lt_irrefl x), if_pos rfl]; exact h2
      · right; rw [lexLe_cons, if_pos h]

theorem lexLe_antisymm {a b : List Char} (h1 : lexLe a b = true)
    (h2 : lexLe b a = true) : a = b := by
  induction a generalizing b with
  | nil =>
    cases b with
    | nil => rfl
    | cons y ys => exact absurd h2 (by simp [lexLe])
  | cons x xs ih =>
    cases b with
    | nil => exact absurd h1 (by simp [lexLe])
    | cons y ys =>
      rcases lt_trichotomy x y with h | h | h
      · rw [lexLe_cons, if_neg (not_lt_of_lt h), if_neg (ne_of_gt h)] at h2
        exact absurd h2 (by simp)
      · subst h
        rw [lexLe_cons, if_neg (lt_irrefl x), if_pos rfl] at h1 h2
        exact congrArg (x :: ·) (ih h1 h2)
      · rw [lexLe_cons, if_neg (not_lt_of_lt h), if_neg (ne_of_gt h)] at h1
        exact absurd h1 (by simp)

theorem lexLe_trans {a b c : List Char} (h1 : lexLe a b = true)
    (h2 : lexLe b c = true) : lexLe a c = true := by
  induction a generalizing b c with
  | nil => rfl
  | cons x xs ih =>
    cases b with
    | nil => exact absurd h1 (by simp [lexLe])
    | cons y ys =>
      cases c with
      | nil => exact absurd h2 (by simp [lexLe])
      | cons z zs =>
        rcases lt_trichotomy x y with hxy | hxy | hxy
        · by_cases hyz : y < z
          · rw [lexLe_cons, if_pos (lt_trans hxy hyz)]
          · by_cases hyz2 : y = z
            · subst hyz2; rw [lexLe_cons, if_pos hxy]
            · rw [lexLe_cons, if_neg hyz, if_neg hyz2] at h2
              exact absurd h2 (by simp)
        · subst hxy
          rw [lexLe_cons, if_neg (lt_irrefl x), if_pos rfl] at h1
          by_cases hxz : x < z
          · rw [lexLe_cons, if_pos hxz]
          · by_cases hxz2 : x = z
            · subst hxz2
              rw [lexLe_cons, if_neg (lt_irrefl x), if_pos rfl] at h2 ⊢
              exact ih h1 h2
            · rw [lexLe_cons, if_neg hxz, if_neg hxz2] at h2
              exact absurd h2 (by simp)
        · rw [lexLe_cons, if_neg (not_lt_of_lt hxy), if_neg (ne_of_gt hxy)] at h1
          exact absurd h1 (by simp)

/-- Comparison by a key (Python `sorted(..., key=...)`). -/
def keyLe (key : α → List Char) (a b : α) : Prop :=
  lexLe (key a) (key b) = true

instance (key : α → List Char) : DecidableRel (keyLe key) :=
  fun a b => instDecidableEqBool (lexLe (key a) (key b)) true

instance (key : α → List Char) : IsTotal α (keyLe key) :=
  ⟨fun a b => lexLe_total (key a) (key b)⟩

instance (key : α → List Char) : IsTrans α (keyLe key) :=
  ⟨fun _ _ _ h1 h2 => lexLe_trans h1 h2⟩

/-- Two sorted lists that are permutations of each other and whose keys are
pairwise distinct are equal. -/
theorem sorted_perm_eq_of_nodup_keys (key : α → List Char) :
    ∀ {l₁ l₂ : List α}, List.Perm l₁ l₂ → l₁.Sorted (keyLe key) →
      l₂.Sorted (keyLe key) → (l₁.map key).Nodup → l₁ = l₂ := by
  intro l₁
  induction l₁ with
  | nil => intro l₂ hp _ _ _; exact (hp.nil_eq).symm ▸ rfl
  | cons a t₁ ih =>
    intro l₂ hp hs₁ hs₂ hn
    cases l₂ with
    | nil => exact absurd hp.symm.nil_eq (by simp)
    | cons b t₂ =>
      have hab : a = b := by
        by_contra hne
        have hbmem : b ∈ a :: t₁ := hp.mem_iff.mpr (List.mem_cons_self b t₂)
        have hamem : a ∈ b :: t₂ := hp.mem_iff.mp (List.mem_cons_self a t₁)
        have hb1 : b ∈ t₁ := by
          rcases List.mem_cons.mp hbmem with h | h
          · exact absurd h.symm hne
          · exact h
        have ha2 : a ∈ t₂ := by
          rcases List.mem_cons.mp hamem with h | h
          · exact absurd h hne
          · exact h
        have h1 : keyLe key a b := (List.sorted_cons.mp hs₁).1 b hb1
        have h2 : keyLe key b a := (List.sorted_cons.mp hs₂).1 a ha2
        have hkeys : key a = key b := lexLe_antisymm h1 h2
        have : key b ∈ t₁.map key := List.mem_map_of_mem key hb1
        rw [← hkeys] at this
        exact (List.nodup_cons.mp hn).1 this
      subst hab
      have hp' : List.Perm t₁ t₂ := hp.cons_inv
      exact congrArg (a :: ·) (ih hp' (List.sorted_cons.mp hs₁).2
        (List.sorted_cons.mp hs₂).2 (List.nodup_cons.mp hn).2)

/-- Sorting is permutation-invariant when the keys are pairwise distinct. -/
theorem insertionSort_eq_of_perm (key : α → List Char) {l l' : List α}
    (hp : List.Perm l l') (hn : (l.map key).Nodup) :
    List.insertionSort (keyLe key) l = List.insertionSort (keyLe key) l' := by
  apply sorted_perm_eq_of_nodup_keys key
  · exact (List.perm_insertionSort (keyLe key) l).trans
      (hp.trans (List.perm_insertionSort (keyLe key) l').symm)
  · exact List.sorted_insertionSort (keyLe key) l
  · exact List.sorted_insertionSort (keyLe key) l'
  · exact ((List.perm_insertionSort (keyLe key) l).map key).nodup_iff.mpr hn

/-! ## Tree builder (`cpai/main.py`)

`format_functions_as_tree` sorts the declarations by lower-cased name, groups
dotted names under their first path segment (mutating `func.name` to the
remainder — see `formatFunctionsAsTreeMut`), renders class groups first (each
under a `├── ` header with a `│   ` continuation), then the standalone
functions.  The Python recursion terminates because every grouped name loses
its first dot; the `Nat` fuel below (initialised above the total name length)
makes that recursion structural and never runs out on the recursion path.

The source accumulates multi-line strings into `lines` and joins with
newlines; the model returns the flat list of lines, whose newline-join is the
identical string. -/

/-- Sort key of `sorted(functions, key=lambda x: x.name.lower())`. -/
def fiKey (f : FunctionInfo) : List Char :=
  (lowerStr f.name).data

/-- Sort key for dict items under `sorted(...)` (dict keys are unique, so the
tuple comparison reduces to the name). -/
def fstKey (p : String × α) : List Char :=
  p.1.data

/-- Append a method to its class group, creating the group at the end on
first encounter (Python dict insertion order). -/
def addToGroup (cname : String) (f : FunctionInfo) :
    List (String × List FunctionInfo) → List (String × List FunctionInfo)
  | [] => [(cname, [f])]
  | (n, fs) :: rest =>
    if n = cname then (n, fs ++ [f]) :: rest
    else (n, fs) :: addToGroup cname f rest

/-- One step of the grouping loop of `format_functions_as_tree`: a
`Class.rest` entry (renamed to `rest`) goes into the class map, the others
into the standalone list. -/
def groupStep (acc : List (String × List FunctionInfo) × List FunctionInfo)
    (f : FunctionInfo) :
    List (String × List FunctionInfo) × List FunctionInfo :=
  if containsDot f.name then
    (addToGroup (beforeFirstDot f.name)
      { f with name := afterFirstDot f.name } acc.1, acc.2)
  else (acc.1, acc.2 ++ [f])

/-- The grouping loop of `format_functions_as_tree` over the sorted list. -/
def groupSplit (sorted : List FunctionInfo) :
    List (String × List FunctionInfo) × List FunctionInfo :=
  sorted.foldl groupStep ([], [])

/-- Default rendering of one function entry: `name(parameters)` when a
non-empty parameter string was captured, else `name()`
(`format_function_for_tree`). -/
def fiDisplay (f : FunctionInfo) : String :=
  match f.parameters with
  | some p => if p ≠ "" then f.name ++ "(" ++ p ++ ")" else f.name ++ "()"
  | none => f.name ++ "()"

/-- `format_functions_as_tree` of `main.py` as a list of lines; `fuel` drives
the recursion into class groups. -/
def ffatAux : Nat → List FunctionInfo → String → List String
  | 0, _, _ => []
  | fuel + 1, funcs, indent =>
    if funcs = [] then []
    else
      let sorted := List.insertionSort (keyLe fiKey) funcs
      let grouped := groupSplit sorted
      let classes := grouped.1
      let standalone := grouped.2
      let sortedClasses := List.insertionSort (keyLe fstKey) classes
      (sortedClasses.flatMap (fun p =>
        (indent ++ "├── " ++ p.1) :: ffatAux fuel p.2 (indent ++ "│   "))) ++
      standalone.map (fun f =>
        indent ++
        (if standalone.getLast? = some f ∧ classes = [] then "└── "
         else "├── ") ++ fiDisplay f)

/-- Total length of all names, bounding the grouping recursion depth. -/
def sumNameLen (funcs : List FunctionInfo) : Nat :=
  (funcs.map (fun f => f.name.data.length)).sum

/-- The lines of `format_functions_as_tree(functions, indent)`. -/
def formatFunctionsAsTreeLines (funcs : List FunctionInfo) (indent : String) :
    List String :=
  ffatAux (sumNameLen funcs + 1) funcs indent

/-- `format_functions_as_tree(functions, indent)` (extractor argument absent;
`OutlineExtractor.format_function_for_tree` has the same body as the default
formatting branch). -/
def formatFunctionsAsTree (funcs : List FunctionInfo) (indent : String) :
    String :=
  pyJoin "\n" (formatFunctionsAsTreeLines funcs indent)

/-- Strip a name to its last dot-segment, the cumulative effect of the
in-place `func.name = method_name` assignments across the recursion of
`format_functions_as_tree`. -/
def stripAllAux : Nat → String → String
  | 0, s => s
  | f + 1, s => if containsDot s then stripAllAux f (afterFirstDot s) else s

def stripAllName (s : String) : String :=
  stripAllAux s.data.length s

/-- `format_functions_as_tree` together with its side effect: Python mutates
the `FunctionInfo` objects of the argument list in place (each grouped name is
assigned its post-dot remainder, and the recursion repeats this on the
groups), so after the call the caller's list holds the stripped names.  The
second component is that post-call list. -/
def formatFunctionsAsTreeMut (funcs : List FunctionInfo) (indent : String) :
    String × List FunctionInfo :=
  (formatFunctionsAsTree funcs indent,
   funcs.map (fun f => { f with name := stripAllName f.name }))

/-- A node of the nested dict built by `build_tree_structure`: directories
map names to subtrees, files hold their pre-rendered outline string. -/
inductive TreeNode where
  | dir (children : List (String × TreeNode))
  | file (outline : String)

/-- `format_tree_with_outlines` of `main.py` as a list of lines, processing
an already-sorted sibling list: every sibling except the last gets the
`├── ` connector and a `│   ` continuation, the last sibling `└── ` and a
blank continuation; a directory recurses on its sorted children, a file with
a non-empty outline emits the outline's lines under the new indent.  `fuel`
drives the recursion (the entry point supplies more than the nesting
depth). -/
def ftwoAux : Nat → String → List (String × TreeNode) → List String
  | 0, _, _ => []
  | _ + 1, _, [] => []
  | fuel + 1, indent, (name, content) :: rest =>
    let is_last := rest.isEmpty
    let pfx := if is_last then "└── " else "├── "
    let newIndent := indent ++ (if is_last then "    " else "│   ")
    let childLines :=
      match content with
      | .dir sub => ftwoAux fuel newIndent (List.insertionSort (keyLe fstKey) sub)
      | .file outline =>
        if outline ≠ "" then (splitNl outline).map (fun l => newIndent ++ l)
        else []
    (indent ++ pfx ++ name) :: childLines ++ ftwoAux fuel indent rest

/-- The number of entries in a tree, nested ones included; bounds the fuel
`ftwoAux` can consume. -/
def treeSizeL : List (String × TreeNode) → Nat
  | [] => 0
  | (_, .file _) :: rest => 1 + treeSizeL rest
  | (_, .dir sub) :: rest => 1 + treeSizeL sub + treeSizeL rest

/-- The lines of `format_tree_with_outlines(tree, indent)`. -/
def formatTreeWithOutlinesLines (tree : List (String × TreeNode))
    (indent : String) : List String :=
  match tree with
  | [] => []
  | t => ftwoAux (treeSizeL t + 1) indent (List.insertionSort (keyLe fstKey) t)

/-- `format_tree_with_outlines(tree, indent)`. -/
def formatTreeWithOutlines (tree : List (String × TreeNode)) (indent : String) :
    String :=
  pyJoin "\n" (formatTreeWithOutlinesLines tree indent)

/-! ## Robustness lemmas (parse failure, empty and whitespace-only input) -/

theorem dropWhile_nil_of_all {p : Char → Bool} :
    ∀ {l : List Char}, (∀ c ∈ l, p c = true) → l.dropWhile p = [] := by
  intro l h
  induction l with
  | nil => rfl
  | cons c r ih =>
    rw [List.dropWhile_cons, if_pos (h c (List.mem_cons_self c r))]
    exact ih (fun d hd => h d (List.mem_cons_of_mem c hd))

/-- Stripping an all-whitespace string yields the empty string. -/
theorem pyStrip_eq_empty {s : String} (h : ∀ c ∈ s.data, pyIsWs c = true) :
    pyStrip s = "" := by
  unfold pyStrip dropWsLeft
  rw [dropWhile_nil_of_all (fun c hc => h c ((List.mem_reverse).mp hc))]
  rfl

/-- Every character of every piece of `splitNlChars l` is a character of
`l`. -/
theorem splitNlChars_chars :
    ∀ (l piece : List Char), piece ∈ splitNlChars l → ∀ c ∈ piece, c ∈ l := by
  intro l
  induction l with
  | nil =>
    intro piece hp c hc
    simp [splitNlChars] at hp
    subst hp
    simp at hc
  | cons a r ih =>
    intro piece hp c hc
    by_cases ha : a = '\n'
    · rw [splitNlChars, if_pos ha] at hp
      rcases List.mem_cons.mp hp with h | h
      · subst h; simp at hc
      · exact List.mem_cons_of_mem a (ih piece h c hc)
    · rw [splitNlChars, if_neg ha] at hp
      rcases hr : splitNlChars r with _ | ⟨l₀, ls⟩
      · rw [hr] at hp
        simp at hp
        subst hp
        simp at hc
        subst hc
        exact List.mem_cons_self _ _
      · rw [hr] at hp
        rcases List.mem_cons.mp hp with h | h
        · subst h
          rcases List.mem_cons.mp hc with h2 | h2
          · subst h2; exact List.mem_cons_self _ _
          · have hl : l₀ ∈ splitNlChars r := by
              rw [hr]; exact List.mem_cons_self _ _
            exact List.mem_cons_of_mem a (ih l₀ hl c h2)
        · have hmem : piece ∈ splitNlChars r := by
            rw [hr]; exact List.mem_cons_of_mem _ h
          exact List.mem_cons_of_mem a (ih piece hmem c hc)

theorem mem_splitNl {s line : String} (h : line ∈ splitNl s) :
    ∀ c ∈ line.data, c ∈ s.data := by
  unfold splitNl at h
  rcases List.mem_map.mp h with ⟨piece, hp, he⟩
  intro c hc
  subst he
  exact splitNlChars_chars s.data piece hp c hc

theorem mem_pySplitlines {s line : String} (h : line ∈ pySplitlines s) :
    ∀ c ∈ line.data, c ∈ s.data := by
  unfold pySplitlines at h
  simp only at h
  split at h
  · have hm : line ∈ (splitNlChars s.data).map (fun l => (⟨l⟩ : String)) :=
      List.dropLast_subset _ h
    rcases List.mem_map.mp hm with ⟨piece, hp, he⟩
    intro c hc
    subst he
    exact splitNlChars_chars s.data piece hp c hc
  · rcases List.mem_map.mp h with ⟨piece, hp, he⟩
    intro c hc
    subst he
    exact splitNlChars_chars s.data piece hp c hc

theorem mem_enumFrom : ∀ (n : Nat) (xs : List α) (p : Nat × α),
    p ∈ enumFrom n xs → p.2 ∈ xs := by
  intro n xs
  induction xs generalizing n with
  | nil => intro p hp; simp [enumFrom] at hp
  | cons x r ih =>
    intro p hp
    rcases List.mem_cons.mp hp with h | h
    · subst h; exact List.mem_cons_self _ _
    · exact List.mem_cons_of_mem x (ih (n + 1) p h)

theorem rustLine_ws (lines : List String) (idx : Nat) (raw : String)
    (st : RustState) (h : pyStrip raw = "") : rustLine lines idx raw st = st := by
  simp [rustLine, h]

theorem rustLoop_id (lines : List String) :
    ∀ (en : List (Nat × String)) (st : RustState),
      (∀ p ∈ en, pyStrip p.2 = "") → rustLoop lines en st = st := by
  intro en
  induction en with
  | nil => intro st _; rfl
  | cons p r ih =>
    intro st h
    rw [rustLoop, rustLine_ws lines p.1 p.2 st (h p (List.mem_cons_self p r))]
    exact ih st (fun q hq => h q (List.mem_cons_of_mem p hq))

/-- Whitespace-only (or empty) input makes the Rust extractor return the
empty list. -/
theorem rustExtract_ws {s : String} (h : ∀ c ∈ s.data, pyIsWs c = true) :
    rustExtract s = [] := by
  unfold rustExtract
  rw [rustLoop_id]
  intro p hp
  exact pyStrip_eq_empty
    (fun c hc => h c (mem_pySplitlines (mem_enumFrom 0 _ p hp) c hc))

theorem lit_none_of_ws (kw : String) (c0 : Char) (cs : List Char)
    (hkw : kw.data = c0 :: cs) (h0 : pyIsWs c0 = false) (l : List Char)
    (h : ∀ c ∈ l, pyIsWs c = true) : lit kw l = none := by
  unfold lit
  rw [hkw]
  cases l with
  | nil => rfl
  | cons d r =>
    have hd : pyIsWs d = true := h d (List.mem_cons_self d r)
    have hne : (c0 == d) = false := by
      apply beq_eq_false_iff_ne.mpr
      intro he
      rw [he] at h0
      rw [h0] at hd
      cases hd
    simp [List.isPrefixOf, hne]

theorem solContractAt_ws {l : List Char} (h : ∀ c ∈ l, pyIsWs c = true) :
    solContractAt l = none := by
  have ha := lit_none_of_ws "abstract" 'a' "bstract".data rfl rfl l h
  have hc := lit_none_of_ws "contract" 'c' "ontract".data rfl rfl l h
  simp [solContractAt, optGrp, ha, hc]

theorem solInterfaceAt_ws {l : List Char} (h : ∀ c ∈ l, pyIsWs c = true) :
    solInterfaceAt l = none := by
  have hi := lit_none_of_ws "interface" 'i' "nterface".data rfl rfl l h
  simp [solInterfaceAt, hi]

theorem solFunctionAt_ws {l : List Char} (h : ∀ c ∈ l, pyIsWs c = true) :
    solFunctionAt l = none := by
  have h1 := lit_none_of_ws "function" 'f' "unction".data rfl rfl l h
  have h2 := lit_none_of_ws "constructor" 'c' "onstructor".data rfl rfl l h
  have h3 := lit_none_of_ws "fallback" 'f' "allback".data rfl rfl l h
  have h4 := lit_none_of_ws "receive" 'r' "eceive".data rfl rfl l h
  simp [solFunctionAt, h1, h2, h3, h4]

theorem reSearch_none (f : List Char → Option β)
    (hf : ∀ l', (∀ c ∈ l', pyIsWs c = true) → f l' = none) :
    ∀ l, (∀ c ∈ l, pyIsWs c = true) → reSearch f l = none := by
  intro l
  induction l with
  | nil => intro h; exact hf [] h
  | cons c r ih =>
    intro h
    rw [reSearch, hf (c :: r) h, ih (fun d hd => h d (List.mem_cons_of_mem c hd))]
    rfl

theorem solLine_ws (idx : Nat) (line : String) (st : SolState)
    (h : ∀ c ∈ line.data, pyIsWs c = true) : solLine idx line st = st := by
  unfold solLine
  rw [reSearch_none solContractAt (fun _ h' => solContractAt_ws h') _ h,
      reSearch_none solInterfaceAt (fun _ h' => solInterfaceAt_ws h') _ h,
      reSearch_none solFunctionAt (fun _ h' => solFunctionAt_ws h') _ h]
  rfl

theorem solLoop_id :
    ∀ (en : List (Nat × String)) (st : SolState),
      (∀ p ∈ en, ∀ c ∈ p.2.data, pyIsWs c = true) → solLoop en st = st := by
  intro en
  induction en with
  | nil => intro st _; rfl
  | cons p r ih =>
    intro st h
    rw [solLoop, solLine_ws p.1 p.2 st (h p (List.mem_cons_self p r))]
    exact ih st (fun q hq => h q (List.mem_cons_of_mem p hq))

/-- Whitespace-only (or empty) input makes the Solidity extractor return the
empty list. -/
theorem solidityExtract_ws {s : String} (h : ∀ c ∈ s.data, pyIsWs c = true) :
    solidityExtract s = [] := by
  unfold solidityExtract
  rw [solLoop_id]
  intro p hp c hc
  exact h c (mem_splitNl (mem_enumFrom 0 _ p hp) c hc)

/-! ## Uniqueness of recorded names

Every extractor guards its list appends with a membership test on the set of
already-seen fully qualified names; the invariant below (recorded names are
pairwise distinct and all belong to the seen set) is preserved by every step
of every extractor. -/

/-- The relation every extractor maintains between its output list and its
seen-names set. -/
def declInv (functions : List FunctionInfo) (seen : List String) : Prop :=
  (functions.map (fun f => f.name)).Nodup ∧ ∀ f ∈ functions, f.name ∈ seen

theorem declInv_nil : declInv [] [] :=
  ⟨List.nodup_nil, fun _ h => absurd h (List.not_mem_nil _)⟩

theorem declInv_append {functions : List FunctionInfo} {seen : List String}
    (h : declInv functions seen) (fi : FunctionInfo) (hni : fi.name ∉ seen) :
    declInv (functions ++ [fi]) (fi.name :: seen) := by
  constructor
  · rw [List.map_append]
    apply (List.nodup_append).mpr
    refine ⟨h.1, by simp, ?_⟩
    intro x hx hx'
    simp at hx'
    subst hx'
    rcases List.mem_map.mp hx with ⟨g, hg, hgname⟩
    exact hni (hgname ▸ h.2 g hg)
  · intro f hf
    rcases List.mem_append.mp hf with hf | hf
    · exact List.mem_cons_of_mem _ (h.2 f hf)
    · simp at hf
      subst hf
      exact List.mem_cons_self _ _

/-- `declInv` with the seen set enlarged. -/
theorem declInv_sub {functions : List FunctionInfo} {seen seen' : List String}
    (h : declInv functions seen) (hsub : seen ⊆ seen') :
    declInv functions seen' :=
  ⟨h.1, fun f hf => hsub (h.2 f hf)⟩

abbrev pyInv (st : PyState) : Prop := declInv st.functions st.seen_names

theorem pyAddFunction_inv (name : String) (ln : Nat) (doc : Option String)
    (st : PyState) (h : pyInv st) : pyInv (pyAddFunction name ln doc st) := by
  unfold pyAddFunction
  dsimp only
  split
  · exact h
  · split
    · exact h
    · split
      · exact h
      · next hni => exact declInv_append h _ hni

theorem pyWalk_inv : ∀ (node : PyNode) (st : PyState), pyInv st →
    pyInv (pyWalk node st) := by
  intro node
  induction node with
  | nil => intro st h; exact h
  | classDef name ln doc body next ihb ihn =>
    intro st h
    exact ihn _ (ihb _ (pyAddFunction_inv name ln doc _ h))
  | functionDef name ln doc args body next ihb ihn =>
    intro st h
    exact ihn _ (ihb _ (pyAddFunction_inv name ln doc _ h))
  | asyncFunctionDef name ln doc args body next ihb ihn =>
    intro st h
    exact ihn _ (ihb _ (pyAddFunction_inv name ln doc _ h))
  | other body next ihb ihn =>
    intro st h
    exact ihn _ (ihb _ h)

/-- Python extractor: the names of one extraction are pairwise distinct. -/
theorem pythonExtract_nodup (p : Option PyNode) :
    ((pythonExtract p).map (fun f => f.name)).Nodup := by
  cases p with
  | none => exact List.nodup_nil
  | some module => exact (pyWalk_inv module ⟨[], [], []⟩ declInv_nil).1

abbrev jsInv (st : JsState) : Prop := declInv st.functions st.seen_names

theorem jsAddFunction_inv (name : String) (ln : Nat) (cm : Option String)
    (st : JsState) (h : jsInv st) : jsInv (jsAddFunction name ln cm st) := by
  unfold jsAddFunction
  dsimp only
  split
  · exact h
  · split
    · exact h
    · split
      · exact h
      · next hni => exact declInv_append h _ hni

theorem jsVarStep_inv (st : JsState) (d : JsDecl) (h : jsInv st) :
    jsInv (jsVarStep st d) := by
  unfold jsVarStep
  split
  · split
    · exact jsAddFunction_inv _ _ _ _ h
    · exact h
  · exact h

theorem jsVarFold_inv : ∀ (decls : List JsDecl) (st : JsState), jsInv st →
    jsInv (List.foldl jsVarStep st decls) := by
  intro decls
  induction decls with
  | nil => intro st h; exact h
  | cons d r ih => intro st h; exact ih _ (jsVarStep_inv st d h)

theorem jsWalk_inv : ∀ (node : JsNode) (st : JsState), jsInv st →
    jsInv (jsWalk node st) := by
  intro node
  induction node with
  | nil => intro st h; exact h
  | node ntype idName keyName line comment decls children next ihc ihn =>
    intro st h
    apply ihn
    apply ihc
    dsimp only
    split
    · cases idName with
      | none => exact h
      | some n => exact jsAddFunction_inv _ _ _ _ h
    · split
      · cases keyName with
        | none => exact h
        | some n =>
          dsimp only
          split
          · exact jsAddFunction_inv _ _ _ _ h
          · exact jsAddFunction_inv _ _ _ _ h
      · split
        · cases idName with
          | none => exact h
          | some n => exact jsAddFunction_inv _ _ _ _ h
        · split
          · exact jsVarFold_inv decls st h
          · exact h

/-- JavaScript extractor: the names of one extraction are pairwise
distinct. -/
theorem jsExtract_nodup (p : Option JsNode) :
    ((jsExtract p).map (fun f => f.name)).Nodup := by
  cases p with
  | none => exact List.nodup_nil
  | some ast => exact (jsWalk_inv ast ⟨none, [], [], []⟩ declInv_nil).1

abbrev rustInv (st : RustState) : Prop := declInv st.functions st.seen_names

theorem rustRecord_inv (fi : FunctionInfo) (st : RustState) (h : rustInv st) :
    rustInv (rustRecord fi st) := by
  unfold rustRecord
  split
  · exact h
  · next hni => exact declInv_append h _ hni

theorem rustLine_inv (lines : List String) (idx : Nat) (raw : String)
    (st : RustState) (h : rustInv st) : rustInv (rustLine lines idx raw st) := by
  unfold rustLine
  dsimp only
  split
  · exact h
  · split
    · exact h
    · split
      · exact h
      · split
        · split
          · exact rustRecord_inv _ _ h
          · exact h
        · split
          · split
            · exact rustRecord_inv _ _ h
            · exact h
          · split
            · split
              · exact rustRecord_inv _ _ h
              · exact h
            · split
              · exact h
              · split
                · split
                  · exact rustRecord_inv _ _ h
                  · exact h
                · exact h

theorem rustLoop_inv (lines : List String) :
    ∀ (en : List (Nat × String)) (st : RustState), rustInv st →
      rustInv (rustLoop lines en st) := by
  intro en
  induction en with
  | nil => intro st h; exact h
  | cons p r ih => intro st h; exact ih _ (rustLine_inv lines p.1 p.2 st h)

/-- Rust extractor: the names of one extraction are pairwise distinct. -/
theorem rustExtract_nodup (s : String) :
    ((rustExtract s).map (fun f => f.name)).Nodup :=
  (rustLoop_inv _ _ _ declInv_nil).1

abbrev solInv (st : SolState) : Prop := declInv st.functions st.seen_names

theorem solRecord_inv (fi : FunctionInfo) (st : SolState) (h : solInv st) :
    solInv (solRecord fi st) := by
  unfold solRecord
  split
  · exact h
  · next hni => exact declInv_append h _ hni

theorem solLine_inv (idx : Nat) (line : String) (st : SolState)
    (h : solInv st) : solInv (solLine idx line st) := by
  unfold solLine
  dsimp only
  have h1 : solInv (match (reSearch solContractAt line.data) <|>
      (reSearch solInterfaceAt line.data) with
    | some name =>
      solRecord { name := name, line_number := idx + 1 }
        { st with current_contract := some name, current_path := [name] }
    | none => st) := by
    split
    · exact solRecord_inv _ _ h
    · exact h
  split
  · split
    · exact solRecord_inv _ _ h1
    · exact h1
  · exact h1

theorem solLoop_inv :
    ∀ (en : List (Nat × String)) (st : SolState), solInv st →
      solInv (solLoop en st) := by
  intro en
  induction en with
  | nil => intro st h; exact h
  | cons p r ih => intro st h; exact ih _ (solLine_inv p.1 p.2 st h)

/-- Solidity extractor: the names of one extraction are pairwise distinct. -/
theorem solidityExtract_nodup (s : String) :
    ((solidityExtract s).map (fun f => f.name)).Nodup :=
  (solLoop_inv _ _ declInv_nil).1

/-! ## The JS hook filter

`add_function` in `javascript.py` rejects every bare identifier starting with
`use` before it is qualified, so every recorded name decomposes as the dotted
join of a dot-free path with a dot-free bare name that does not start with
`use` (esprima identifiers cannot contain dots; the dot-freeness hypothesis
records that). -/

def optDotFree : Option String → Prop
  | none => True
  | some s => containsDot s = false

/-- All identifier names appearing in a JS AST are dot-free. -/
def jsNamesDotFree : JsNode → Prop
  | .nil => True
  | .node _ idName keyName _ _ decls children next =>
    optDotFree idName ∧ optDotFree keyName ∧
    (∀ d ∈ decls, optDotFree d.idName) ∧
    jsNamesDotFree children ∧ jsNamesDotFree next

/-- A recorded declaration decomposes into a dot-free enclosing path and a
dot-free, non-empty bare name that does not start with `use`. -/
def jsBareOk (f : FunctionInfo) : Prop :=
  ∃ ps nm, (∀ p ∈ ps, containsDot p = false) ∧ containsDot nm = false ∧
    nm ≠ "" ∧ strStarts "use" nm = false ∧ f.name = jsGetFullPath ps nm

def jsUseInv (st : JsState) : Prop :=
  (∀ p ∈ st.current_path, containsDot p = false) ∧
  ∀ f ∈ st.functions, jsBareOk f

theorem jsAddFunction_useInv (name : String) (ln : Nat) (cm : Option String)
    (st : JsState) (hn : containsDot name = false) (h : jsUseInv st) :
    jsUseInv (jsAddFunction name ln cm st) := by
  unfold jsAddFunction
  dsimp only
  split
  · exact h
  · next hne =>
    split
    · exact h
    · next hfil =>
      split
      · exact h
      · refine ⟨h.1, ?_⟩
        intro f hf
        rcases List.mem_append.mp hf with hf | hf
        · exact h.2 f hf
        · simp at hf
          subst hf
          refine ⟨st.current_path, name, h.1, hn, hne, ?_, rfl⟩
          have hfil' := Bool.eq_false_iff.mpr hfil
          rcases Bool.or_eq_false_iff.mp hfil' with ⟨h1, _⟩
          exact (Bool.or_eq_false_iff.mp h1).2

theorem jsVarStep_useInv (st : JsState) (d : JsDecl)
    (hd : optDotFree d.idName) (h : jsUseInv st) :
    jsUseInv (jsVarStep st d) := by
  unfold jsVarStep
  split
  · next it n heq1 heq2 =>
    split
    · apply jsAddFunction_useInv
      · rw [heq2] at hd; exact hd
      · refine ⟨?_, h.2⟩
        intro p hp
        rcases List.mem_append.mp hp with hp | hp
        · exact h.1 p hp
        · simp at hp
          subst hp
          rw [heq2] at hd
          exact hd
    · exact h
  · exact h

theorem jsVarFold_useInv : ∀ (decls : List JsDecl) (st : JsState),
    (∀ d ∈ decls, optDotFree d.idName) → jsUseInv st →
    jsUseInv (List.foldl jsVarStep st decls) := by
  intro decls
  induction decls with
  | nil => intro st _ h; exact h
  | cons d r ih =>
    intro st hd h
    exact ih _ (fun e he => hd e (List.mem_cons_of_mem d he))
      (jsVarStep_useInv st d (hd d (List.mem_cons_self d r)) h)

theorem jsWalk_useInv : ∀ (node : JsNode) (st : JsState),
    jsNamesDotFree node → jsUseInv st → jsUseInv (jsWalk node st) := by
  intro node
  induction node with
  | nil => intro st _ h; exact h
  | node ntype idName keyName line comment decls children next ihc ihn =>
    intro st hdf h
    rcases hdf with ⟨hid, hkey, hdecls, hch, hnx⟩
    have hpath : ∀ p ∈ st.current_path, containsDot p = false := h.1
    apply ihn _ hnx
    refine ⟨hpath, (ihc _ hch ?_).2⟩
    dsimp only
    split
    · cases idName with
      | none => exact h
      | some n =>
        apply jsAddFunction_useInv _ _ _ _ hid
        refine ⟨?_, h.2⟩
        intro p hp
        rcases List.mem_append.mp hp with hp | hp
        · exact hpath p hp
        · simp at hp; subst hp; exact hid
    · split
      · cases keyName with
        | none => exact h
        | some n =>
          dsimp only
          split
          · apply jsAddFunction_useInv _ _ _ _ hkey
            refine ⟨?_, h.2⟩
            intro p hp
            rcases List.mem_append.mp hp with hp | hp
            · exact hpath p hp
            · simp at hp; subst hp; exact hkey
          · exact jsAddFunction_useInv _ _ _ _ hkey h
      · split
        · cases idName with
          | none => exact h
          | some n =>
            apply jsAddFunction_useInv _ _ _ _ hid
            refine ⟨?_, h.2⟩
            intro p hp
            rcases List.mem_append.mp hp with hp | hp
            · exact hpath p hp
            · simp at hp; subst hp; exact hid
        · split
          · exact jsVarFold_useInv decls st hdecls h
          · exact h

/-- JavaScript extractor: every recorded declaration keeps a bare name that
does not start with `use`. -/
theorem jsExtract_useFree (ast : JsNode) (hdf : jsNamesDotFree ast) :
    ∀ f ∈ jsExtract (some ast), jsBareOk f := by
  have h := jsWalk_useInv ast ⟨none, [], [], []⟩ hdf
    ⟨fun _ hp => absurd hp (List.not_mem_nil _),
     fun _ hf => absurd hf (List.not_mem_nil _)⟩
  exact h.2

/-! ## Connector-line analysis of the renderers -/

theorem strApp_data (a b : String) : (a ++ b).data = a.data ++ b.data := rfl

theorem isPrefixOf_append_self :
    ∀ (p t : List Char), p.isPrefixOf (p ++ t) = true := by
  intro p
  induction p with
  | nil => intro t; simp [List.isPrefixOf]
  | cons c r ih => intro t; simp [List.isPrefixOf, ih]

theorem isPrefixOf_append_left :
    ∀ (a p s : List Char), (a ++ p).isPrefixOf (a ++ s) = p.isPrefixOf s := by
  intro a
  induction a with
  | nil => intro p s; rfl
  | cons c r ih => intro p s; simp [List.isPrefixOf, ih]

theorem isPrefixOf_false_of_ne_head (c d : Char) (h : (c == d) = false)
    (p s : List Char) : (c :: p).isPrefixOf (d :: s) = false := by
  simp [List.isPrefixOf]
  intro he
  rw [he, beq_self_eq_true] at h
  cases h

/-- A string extending a prefix with more text starts with that prefix. -/
theorem strStarts_append (a r : String) : strStarts a (a ++ r) = true := by
  unfold strStarts
  rw [strApp_data]
  exact isPrefixOf_append_self _ _

/-- A line produced at a sibling level: did it get the branch or the corner
connector of that level? -/
def connLine (indent l : String) : Bool :=
  strStarts (indent ++ "├── ") l || strStarts (indent ++ "└── ") l

def cornerLine (indent l : String) : Bool :=
  strStarts (indent ++ "└── ") l

theorem connLine_branch (indent name : String) :
    connLine indent (indent ++ "├── " ++ name) = true := by
  unfold connLine
  rw [strStarts_append]
  rfl

theorem connLine_corner (indent name : String) :
    connLine indent (indent ++ "└── " ++ name) = true := by
  unfold connLine
  rw [strStarts_append]
  simp

theorem cornerLine_corner_true (indent name : String) :
    cornerLine indent (indent ++ "└── " ++ name) = true :=
  strStarts_append _ _

theorem cornerLine_branch_false (indent name : String) :
    cornerLine indent (indent ++ "├── " ++ name) = false := by
  unfold cornerLine strStarts
  rw [strApp_data, strApp_data, strApp_data, List.append_assoc,
      isPrefixOf_append_left,
      show ("├── ".data : List Char) = '├' :: "── ".data from rfl,
      show ("└── ".data : List Char) = '└' :: "── ".data from rfl,
      List.cons_append]
  exact isPrefixOf_false_of_ne_head '└' '├' rfl _ _

/-- A line whose data continues the indent with a character other than the
two connectors is not a connector line of that level. -/
theorem connLine_false_of_head (indent l : String) (c : Char) (r : List Char)
    (hl : l.data = indent.data ++ (c :: r))
    (h1 : ('├' == c) = false) (h2 : ('└' == c) = false) :
    connLine indent l = false := by
  unfold connLine strStarts
  rw [strApp_data, strApp_data, hl, isPrefixOf_append_left,
      isPrefixOf_append_left,
      show ("├── ".data : List Char) = '├' :: "── ".data from rfl,
      show ("└── ".data : List Char) = '└' :: "── ".data from rfl,
      isPrefixOf_false_of_ne_head '├' c h1,
      isPrefixOf_false_of_ne_head '└' c h2]
  rfl

theorem cornerLine_false_of_head (indent l : String) (c : Char) (r : List Char)
    (hl : l.data = indent.data ++ (c :: r)) (h2 : ('└' == c) = false) :
    cornerLine indent l = false := by
  unfold cornerLine strStarts
  rw [strApp_data, hl, isPrefixOf_append_left,
      show ("└── ".data : List Char) = '└' :: "── ".data from rfl]
  exact isPrefixOf_false_of_ne_head '└' c h2 _ _

/-- Stripping is the identity on dot-free names. -/
theorem stripAllName_dotfree {s : String} (h : containsDot s = false) :
    stripAllName s = s := by
  unfold stripAllName
  cases s.data.length with
  | zero => rfl
  | succ n => simp [stripAllAux, h]

/-! ## Concrete inputs used by the claims -/

/-- The AST `ast.parse` produces for
`"class Greeter:\n    def greet(self):\n        \"\"\"Say hello\"\"\"\n        pass\n"`. -/
def greeterAst : PyNode :=
  .classDef "Greeter" 1 none
    (.functionDef "greet" 2 (some "Say hello") ["self"] .nil .nil) .nil

/-- The AST `ast.parse` produces for `"def foo(a, b):\n    pass\n"`. -/
def fooAst : PyNode :=
  .functionDef "foo" 1 none ["a", "b"] .nil .nil

/-- The module-goal AST of `"export function add(a, b) { return a + b; }"`
(under the script goal that `javascript.py` actually requests, the parse
fails outright, which is the `none` case of `jsExtract`). -/
def exportAddAst : JsNode :=
  .node "Program" none none 1 none []
    (.node "ExportNamedDeclaration" none none 1 none []
      (.node "FunctionDeclaration" (some "add") none 1 none [] .nil .nil)
      .nil)
    .nil

/-- A script declaring `userLogin`, `useful` and `useState` functions. -/
def useDemoAst : JsNode :=
  .node "Program" none none 1 none []
    (.node "FunctionDeclaration" (some "userLogin") none 1 none [] .nil
      (.node "FunctionDeclaration" (some "useful") none 2 none [] .nil
        (.node "FunctionDeclaration" (some "useState") none 3 none [] .nil
          .nil)))
    .nil

/-- The spec's Rust scenario D source, on one line. -/
def rustScenarioD : String :=
  "impl Foo \x7b pub fn bar() \x7b\x7d fn new() -> Self \x7b .. \x7d \x7d"

/-- Scenario D with each item on its own line. -/
def rustScenarioDLines : String :=
  "impl Foo \x7b\n    pub fn bar() \x7b\x7d\n    fn new() -> Self \x7b .. \x7d\n\x7d"

/-! ## Claims -/

/-- Claim C1: the spec says extracting the `Greeter` source yields a
Declaration named `Greeter` (kind class) and one named `Greeter.greet` (kind
method, leading_comment containing "Say hello").  The code instead records
the class under `Greeter.Greeter` — `visit_ClassDef` appends the class name
to `current_path` before calling `add_function`, and `get_full_path` joins
the path plus the name again — and leaves `node_type` at its `'function'`
default for both entries; only the method's name and leading comment match
the spec.  The repository's own test (`test_tree.py::test_python_class_method`)
expects the bare class name, so this is a code bug. -/
theorem claim_C1_eval :
    (pythonExtract (some greeterAst)).map
      (fun f => (f.name, f.node_type, f.leading_comment)) =
    [("Greeter.Greeter", "function", none),
     ("Greeter.greet", "function", some "Say hello")] := by decide

/-- Claim C2: every extractor returns a (possibly empty) list on every input
and never propagates an exception.  In the embedding the fallible parses are
`Option`-valued and the extractors are total functions: a Python or
JavaScript parse failure (`none`, the caught-exception path) yields `[]`, an
empty Python module yields `[]`, and the line-based Rust and Solidity
extractors yield `[]` on every empty or whitespace-only input. -/
theorem claim_C2 :
    pythonExtract none = [] ∧ pythonExtract (some .nil) = [] ∧
    jsExtract none = [] ∧
    (∀ s : String, (∀ c ∈ s.data, pyIsWs c = true) → rustExtract s = []) ∧
    (∀ s : String, (∀ c ∈ s.data, pyIsWs c = true) → solidityExtract s = []) :=
  ⟨rfl, rfl, rfl, fun _ h => rustExtract_ws h, fun _ h => solidityExtract_ws h⟩

theorem claim_C2_witness :
    rustExtract " \n\t " = [] ∧ solidityExtract " \n\t " = [] :=
  ⟨claim_C2.2.2.2.1 " \n\t " (by decide),
   claim_C2.2.2.2.2 " \n\t " (by decide)⟩

/-- Claim C3: for every extractor and every input the fully qualified names
of one extraction are pairwise distinct, and an `add_function` call whose
fully qualified name was already recorded leaves the state unchanged (the
first occurrence wins; the Rust and Solidity extractors guard their appends
with the same seen-set test, covered by the distinctness clauses). -/
theorem claim_C3 :
    (∀ p : Option PyNode, ((pythonExtract p).map (fun f => f.name)).Nodup) ∧
    (∀ p : Option JsNode, ((jsExtract p).map (fun f => f.name)).Nodup) ∧
    (∀ s : String, ((rustExtract s).map (fun f => f.name)).Nodup) ∧
    (∀ s : String, ((solidityExtract s).map (fun f => f.name)).Nodup) ∧
    (∀ (name : String) (ln : Nat) (doc : Option String) (st : PyState),
      pyGetFullPath st.current_path name ∈ st.seen_names →
      pyAddFunction name ln doc st = st) ∧
    (∀ (name : String) (ln : Nat) (cm : Option String) (st : JsState),
      jsGetFullPath st.current_path name ∈ st.seen_names →
      jsAddFunction name ln cm st = st) := by
  refine ⟨pythonExtract_nodup, jsExtract_nodup, rustExtract_nodup,
    solidityExtract_nodup, ?_, ?_⟩
  · intro name ln doc st h
    unfold pyAddFunction
    dsimp only
    split
    · rfl
    · split
      · rfl
      · rfl
  · intro name ln cm st h
    unfold jsAddFunction
    dsimp only
    split
    · rfl
    · split
      · rfl
      · rfl

theorem claim_C3_witness :
    ((rustExtract rustScenarioDLines).map (fun f => f.name)).Nodup ∧
    pyAddFunction "f" 1 none ⟨[], ["f"], []⟩ = ⟨[], ["f"], []⟩ :=
  ⟨claim_C3.2.2.1 rustScenarioDLines,
   claim_C3.2.2.2.2.1 "f" 1 none ⟨[], ["f"], []⟩ (by decide)⟩

/-- Claim C4 counterexample: the claim says extracting scenario D yields
exactly one Declaration (`Foo.bar`, with `new` removed by a stoplist).  On
the one-line input the `impl` match consumes the whole line (`continue`),
so the extraction is empty — not of length one. -/
theorem claim_C4_counterexample :
    rustExtract rustScenarioD = [] ∧ (rustExtract rustScenarioD).length ≠ 1 :=
  ⟨by decide, by decide⟩

/-- Claim C4 (amended): `rust.py` has no trait-method stoplist — only names
starting with an underscore are excluded.  The one-line scenario D input
yields no declarations at all (the `impl` header match consumes the line);
with the items on separate lines it yields both `Foo.bar` and `Foo.new`. -/
theorem claim_C4_amended :
    rustExtract rustScenarioD = [] ∧
    (rustExtract rustScenarioDLines).map (fun f => f.name) =
      ["Foo.bar", "Foo.new"] :=
  ⟨by decide, by decide⟩

/-- Claim C5 counterexample: the claim says the Declaration for
`"def foo(a, b):\n    pass\n"` has a `parameters` field containing `a, b`.
The Python extractor never captures parameters: the single Declaration has
`parameters = none` (every field below not shown is its default — in
particular `parameters := none`). -/
theorem claim_C5_counterexample :
    pythonExtract (some fooAst) = [{ name := "foo", line_number := 1 }] ∧
    ∀ f ∈ pythonExtract (some fooAst), f.parameters = none :=
  ⟨by decide, by decide⟩

/-- Claim C5 (amended): extracting `"def foo(a, b):\n    pass\n"` yields
exactly one Declaration named `foo` of kind `function`, whose `parameters`
field is `None` — the Python extractor does not capture the
formal-argument list. -/
theorem claim_C5_amended :
    (pythonExtract (some fooAst)).map
      (fun f => (f.name, f.node_type, f.parameters)) =
    [("foo", "function", none)] := by decide

/-- Claim C6: the spec (and `test_typescript.py`) say
`"export function add(a, b) { return a + b; }"` yields one Declaration named
`add` with `is_exported = true`.  The code cannot produce this: the
`esprima.parseScript` call rejects module syntax, so the extraction is empty
(first conjunct); and even under a module-goal parse of the same source the
extractor would record the function as `add.add` (the `FunctionDeclaration`
branch appends the name to the path before qualifying) with `is_export`
left `false` — no code path ever sets it.  A code bug. -/
theorem claim_C6_eval :
    jsExtract none = [] ∧
    (jsExtract (some exportAddAst)).map
      (fun f => (f.name, f.is_export, f.is_default_export)) =
    [("add.add", false, false)] :=
  ⟨rfl, by decide⟩

/-- Claim C10: the JavaScript extractor drops every identifier that starts
with `use` — including non-hooks such as `userLogin` and `useful` — so every
recorded declaration decomposes into a dot-free path and a bare name that
does not start with `use` (first conjunct; esprima identifiers are dot-free),
and the demo script declaring `userLogin`, `useful` and `useState` extracts
to nothing (second conjunct). -/
theorem claim_C10 :
    (∀ ast : JsNode, jsNamesDotFree ast →
      ∀ f ∈ jsExtract (some ast), jsBareOk f) ∧
    jsExtract (some useDemoAst) = [] :=
  ⟨jsExtract_useFree, by decide⟩

theorem claim_C10_witness :
    jsBareOk { name := "add.add", line_number := 1 } :=
  claim_C10.1 exportAddAst
    (by simp [jsNamesDotFree, optDotFree, containsDot, exportAddAst])
    { name := "add.add", line_number := 1 } (by decide)

/-! ## Order-independence of the renderers (C7) -/

/-- The contribution of a single entry to `treeSizeL`. -/
def esizeTN : String × TreeNode → Nat
  | (_, .file _) => 1
  | (_, .dir sub) => 1 + treeSizeL sub

theorem treeSizeL_cons (p : String × TreeNode) (rest : List (String × TreeNode)) :
    treeSizeL (p :: rest) = esizeTN p + treeSizeL rest := by
  rcases p with ⟨n, c⟩
  cases c with
  | dir sub => simp [treeSizeL, esizeTN]
  | file s => simp [treeSizeL, esizeTN]

theorem treeSizeL_perm {l l' : List (String × TreeNode)} (hp : List.Perm l l') :
    treeSizeL l = treeSizeL l' := by
  induction hp with
  | nil => rfl
  | cons x _ ih => rw [treeSizeL_cons, treeSizeL_cons, ih]
  | swap x y l => rw [treeSizeL_cons, treeSizeL_cons, treeSizeL_cons, treeSizeL_cons]; omega
  | trans _ _ ih1 ih2 => exact ih1.trans ih2

/-- `ffatAux` reads its argument list only through its sorted version (and
the emptiness test, determined by it). -/
theorem ffatAux_eq_of_sorted_eq :
    ∀ (fuel : Nat) (indent : String) {funcs funcs' : List FunctionInfo},
      List.insertionSort (keyLe fiKey) funcs =
        List.insertionSort (keyLe fiKey) funcs' →
      ffatAux fuel funcs indent = ffatAux fuel funcs' indent := by
  intro fuel indent funcs funcs' hs
  have hlen : funcs.length = funcs'.length := by
    rw [← (List.perm_insertionSort (keyLe fiKey) funcs).length_eq, hs,
        (List.perm_insertionSort (keyLe fiKey) funcs').length_eq]
  cases fuel with
  | zero => rfl
  | succ n =>
    by_cases hemp : funcs = []
    · subst hemp
      have h2 : funcs' = [] := List.length_eq_zero.mp (by rw [← hlen]; rfl)
      subst h2; rfl
    · have hemp' : funcs' ≠ [] := by
        intro hh
        subst hh
        exact hemp (List.length_eq_zero.mp (by rw [hlen]; rfl))
      simp only [ffatAux]
      rw [if_neg hemp, if_neg hemp', hs]

/-- Rendering the declarations of a file does not depend on the order they
were extracted in, provided the lower-cased names are pairwise distinct. -/
theorem formatFunctionsAsTree_perm {funcs funcs' : List FunctionInfo}
    (indent : String) (hp : List.Perm funcs funcs')
    (hn : (funcs.map fiKey).Nodup) :
    formatFunctionsAsTree funcs indent = formatFunctionsAsTree funcs' indent := by
  unfold formatFunctionsAsTree formatFunctionsAsTreeLines
  rw [show sumNameLen funcs = sumNameLen funcs' from (hp.map _).sum_eq]
  exact congrArg (pyJoin "\n")
    (ffatAux_eq_of_sorted_eq _ _ (insertionSort_eq_of_perm fiKey hp hn))

/-- Rendering a directory level does not depend on the order of its entries
(dict keys are unique, so the name keys are pairwise distinct). -/
theorem formatTreeWithOutlines_perm {tree tree' : List (String × TreeNode)}
    (indent : String) (hp : List.Perm tree tree')
    (hn : (tree.map fstKey).Nodup) :
    formatTreeWithOutlines tree indent = formatTreeWithOutlines tree' indent := by
  unfold formatTreeWithOutlines formatTreeWithOutlinesLines
  cases tree with
  | nil =>
    have h2 : tree' = [] := hp.nil_eq.symm
    subst h2; rfl
  | cons x xs =>
    cases tree' with
    | nil =>
      have h2 : ([] : List (String × TreeNode)) = x :: xs := hp.symm.nil_eq
      cases h2
    | cons y ys =>
      dsimp only
      rw [treeSizeL_perm hp, insertionSort_eq_of_perm fstKey hp hn]

/-- Claim C7 counterexample: at the declaration level the order is by
lower-cased name, not case-sensitively lexicographic: `a()` is rendered
before `B()` although `B()` precedes `a()` in the code-point order. -/
theorem claim_C7_counterexample :
    formatFunctionsAsTree [{ name := "B" }, { name := "a" }] "" =
      "├── a()\n└── B()" ∧
    lexLe "B()".data "a()".data = true ∧ ("B()" : String) ≠ "a()" :=
  ⟨by decide, by decide, by decide⟩

/-- Claim C7 (amended): the rendered tree is deterministic and independent
of declaration order — directory/file siblings are ordered case-sensitively
lexicographically, while declarations inside a file are ordered by their
lower-cased names (class groups before standalone functions).  The two
universal clauses state order-independence (given pairwise-distinct keys);
the two concrete clauses exhibit the respective orders. -/
theorem claim_C7_amended :
    (∀ (funcs funcs' : List FunctionInfo) (indent : String),
      List.Perm funcs funcs' → (funcs.map fiKey).Nodup →
      formatFunctionsAsTree funcs indent = formatFunctionsAsTree funcs' indent) ∧
    (∀ (tree tree' : List (String × TreeNode)) (indent : String),
      List.Perm tree tree' → (tree.map fstKey).Nodup →
      formatTreeWithOutlines tree indent = formatTreeWithOutlines tree' indent) ∧
    formatFunctionsAsTree [{ name := "B" }, { name := "a" }] "" =
      "├── a()\n└── B()" ∧
    ftwoAux 3 ""
      (List.insertionSort (keyLe fstKey) [("a", .file ""), ("B", .file "")]) =
      ["├── B", "└── a"] :=
  ⟨fun _ _ indent hp hn => formatFunctionsAsTree_perm indent hp hn,
   fun _ _ indent hp hn => formatTreeWithOutlines_perm indent hp hn,
   by decide, by decide⟩

theorem claim_C7_witness :
    formatFunctionsAsTree [{ name := "A.b" }, { name := "c" }] "" =
      formatFunctionsAsTree [{ name := "c" }, { name := "A.b" }] "" ∧
    formatTreeWithOutlines [("a", TreeNode.file "x")] "" =
      formatTreeWithOutlines [("a", TreeNode.file "x")] "" :=
  ⟨claim_C7_amended.1 _ _ "" (by decide) (by decide),
   claim_C7_amended.2.1 _ _ "" (List.Perm.refl _) (by decide)⟩

/-! ## The renderer's in-place name mutation (C8) -/

/-- Claim C8 counterexample: rendering `[A.b]` strips the Declaration's name
to `b` (second component of `formatFunctionsAsTreeMut`), so rendering the
same list again produces different output. -/
theorem claim_C8_counterexample :
    (formatFunctionsAsTreeMut [{ name := "A.b" }] "").2 ≠ [{ name := "A.b" }] ∧
    formatFunctionsAsTree [{ name := "A.b" }] "" ≠
      formatFunctionsAsTree ((formatFunctionsAsTreeMut [{ name := "A.b" }] "").2) "" :=
  ⟨by decide, by decide⟩

/-- Claim C8 (amended): `format_functions_as_tree` mutates dotted names in
place (each is stripped to its final segment); only when no declaration name
contains a dot is the list left unchanged, and only then does re-rendering
reproduce the same output. -/
theorem claim_C8_amended (funcs : List FunctionInfo) (indent : String)
    (h : ∀ f ∈ funcs, containsDot f.name = false) :
    (formatFunctionsAsTreeMut funcs indent).2 = funcs ∧
    formatFunctionsAsTree ((formatFunctionsAsTreeMut funcs indent).2) indent =
      formatFunctionsAsTree funcs indent := by
  have hmap : funcs.map (fun f => { f with name := stripAllName f.name }) = funcs := by
    have hcong : ∀ f ∈ funcs,
        ({ f with name := stripAllName f.name } : FunctionInfo) = f := by
      intro f hf
      rw [stripAllName_dotfree (h f hf)]
    calc funcs.map (fun f => { f with name := stripAllName f.name })
        = funcs.map id := List.map_congr_left hcong
      _ = funcs := List.map_id funcs
  exact ⟨hmap, by rw [show (formatFunctionsAsTreeMut funcs indent).2 =
    funcs.map (fun f => { f with name := stripAllName f.name }) from rfl, hmap]⟩

theorem claim_C8_witness :
    (formatFunctionsAsTreeMut [{ name := "x" }] "").2 = [{ name := "x" }] ∧
    formatFunctionsAsTree ((formatFunctionsAsTreeMut [{ name := "x" }] "").2) "" =
      formatFunctionsAsTree [{ name := "x" }] "" :=
  claim_C8_amended [{ name := "x" }] "" (by decide)

/-! ## Connector structure of the serialized tree (C9) -/

theorem getLast?_mem' {l : List α} {a : α} (h : l.getLast? = some a) :
    a ∈ l := by
  rcases List.mem_getLast?_eq_getLast (Option.mem_def.mpr h) with ⟨hne, he⟩
  rw [he]
  exact List.getLast_mem hne

theorem ftwoAux_nil : ∀ (fuel : Nat) (ind : String),
    ftwoAux fuel ind [] = [] := by
  intro fuel ind
  cases fuel <;> rfl

/-- Every line rendered below a level starts with that level's indent. -/
theorem ftwoAux_shape : ∀ (fuel : Nat) (ind : String)
    (items : List (String × TreeNode)),
    ∀ l ∈ ftwoAux fuel ind items, ∃ r, l.data = ind.data ++ r := by
  intro fuel
  induction fuel with
  | zero => intro ind items l hl; simp [ftwoAux] at hl
  | succ n ih =>
    intro ind items l hl
    cases items with
    | nil => simp [ftwoAux] at hl
    | cons p rest =>
      rcases p with ⟨name, content⟩
      simp only [ftwoAux] at hl
      rcases List.mem_cons.mp hl with hl | hl
      · subst hl
        exact ⟨_, by rw [strApp_data, strApp_data, List.append_assoc]⟩
      · rcases List.mem_append.mp hl with hl | hl
        · cases content with
          | dir sub =>
            dsimp only at hl
            rcases ih _ _ l hl with ⟨r, hr⟩
            rw [strApp_data, List.append_assoc] at hr
            exact ⟨_, hr⟩
          | file o =>
            dsimp only at hl
            by_cases ho : o ≠ ""
            · rw [if_pos ho] at hl
              rcases List.mem_map.mp hl with ⟨x, _, hx⟩
              subst hx
              exact ⟨_, by rw [strApp_data, strApp_data, List.append_assoc]⟩
            · rw [if_neg ho] at hl
              simp at hl
        · exact ih ind rest l hl

/-- A line carrying a continuation indent (`"    "` or `"│   "`) is not a
connector line of the enclosing level. -/
theorem connLine_false_of_cont (ind cont : String)
    (hc : cont = "    " ∨ cont = "│   ") (l : String)
    (h : ∃ r, l.data = (ind ++ cont).data ++ r) : connLine ind l = false := by
  rcases h with ⟨r, hr⟩
  rw [strApp_data, List.append_assoc] at hr
  rcases hc with hc | hc <;> subst hc
  · rw [show ("    ".data : List Char) = ' ' :: "   ".data from rfl,
        List.cons_append] at hr
    exact connLine_false_of_head ind l ' ' _ hr rfl rfl
  · rw [show ("│   ".data : List Char) = '│' :: "   ".data from rfl,
        List.cons_append] at hr
    exact connLine_false_of_head ind l '│' _ hr rfl rfl

theorem cornerLine_false_of_cont (ind cont : String)
    (hc : cont = "    " ∨ cont = "│   ") (l : String)
    (h : ∃ r, l.data = (ind ++ cont).data ++ r) : cornerLine ind l = false := by
  rcases h with ⟨r, hr⟩
  rw [strApp_data, List.append_assoc] at hr
  rcases hc with hc | hc <;> subst hc
  · rw [show ("    ".data : List Char) = ' ' :: "   ".data from rfl,
        List.cons_append] at hr
    exact cornerLine_false_of_head ind l ' ' _ hr rfl
  · rw [show ("│   ".data : List Char) = '│' :: "   ".data from rfl,
        List.cons_append] at hr
    exact cornerLine_false_of_head ind l '│' _ hr rfl

/-- The child block below one sibling contributes no connector line of the
sibling's own level. -/
theorem childLines_filter_nil (n : Nat) (ind cont : String)
    (hc : cont = "    " ∨ cont = "│   ") (content : TreeNode) :
    (match content with
     | TreeNode.dir sub =>
       ftwoAux n (ind ++ cont) (List.insertionSort (keyLe fstKey) sub)
     | TreeNode.file o =>
       if o ≠ "" then (splitNl o).map (fun l => (ind ++ cont) ++ l)
       else []).filter (connLine ind) = [] := by
  apply List.filter_eq_nil_iff.mpr
  intro a ha
  cases content with
  | dir sub =>
    dsimp only at ha
    have hs := ftwoAux_shape n (ind ++ cont) _ a ha
    simp [connLine_false_of_cont ind cont hc a hs]
  | file o =>
    dsimp only at ha
    by_cases ho : o ≠ ""
    · rw [if_pos ho] at ha
      rcases List.mem_map.mp ha with ⟨x, _, hx⟩
      subst hx
      simp [connLine_false_of_cont ind cont hc _ ⟨x.data, strApp_data _ _⟩]
    · rw [if_neg ho] at ha
      simp at ha

/-- The connector lines of one rendered level are exactly its sibling
headers: every sibling but the last with the branch connector, the last with
the corner connector. -/
theorem ftwoAux_filter_conn :
    ∀ (items : List (String × TreeNode)) (fuel : Nat) (indent : String),
      items.length ≤ fuel →
      (ftwoAux fuel indent items).filter (connLine indent) =
        items.dropLast.map (fun p => indent ++ "├── " ++ p.1) ++
        (items.getLast?.map (fun p => indent ++ "└── " ++ p.1)).toList := by
  intro items
  induction items with
  | nil =>
    intro fuel indent _
    rw [ftwoAux_nil]
    rfl
  | cons p rest ih =>
    intro fuel indent hlen
    cases fuel with
    | zero => simp at hlen
    | succ n =>
      rcases p with ⟨name, content⟩
      cases rest with
      | nil =>
        have hyes : ([] : List (String × TreeNode)).isEmpty = true := rfl
        simp only [ftwoAux, if_pos hyes, ftwoAux_nil, List.append_nil]
        rw [List.filter_cons, connLine_corner indent name,
          childLines_filter_nil n indent "    " (Or.inl rfl) content]
        rfl
      | cons q t =>
        have hno : ¬ ((q :: t).isEmpty = true) := by simp
        simp only [ftwoAux, if_neg hno]
        rw [List.cons_append, List.filter_cons, List.filter_append,
          connLine_branch indent name,
          childLines_filter_nil n indent "│   " (Or.inr rfl) content,
          ih n indent (by simp at hlen ⊢; omega),
          List.dropLast_cons₂, List.getLast?_cons_cons]
        rfl

/-- Every line rendered by the declaration renderer starts with its
indent. -/
theorem ffatAux_shape : ∀ (fuel : Nat) (funcs : List FunctionInfo)
    (ind : String), ∀ l ∈ ffatAux fuel funcs ind, ∃ r, l.data = ind.data ++ r := by
  intro fuel
  induction fuel with
  | zero => intro funcs ind l hl; simp [ffatAux] at hl
  | succ n ih =>
    intro funcs ind l hl
    by_cases hemp : funcs = []
    · simp only [ffatAux, if_pos hemp] at hl
      simp at hl
    · simp only [ffatAux, if_neg hemp] at hl
      rcases List.mem_append.mp hl with hl | hl
      · rcases List.mem_flatMap.mp hl with ⟨p, _, hmem⟩
        rcases List.mem_cons.mp hmem with h | h
        · subst h
          exact ⟨_, by rw [strApp_data, strApp_data, List.append_assoc]⟩
        · rcases ih _ _ l h with ⟨r, hr⟩
          rw [strApp_data, List.append_assoc] at hr
          exact ⟨_, hr⟩
      · rcases List.mem_map.mp hl with ⟨f, _, hfe⟩
        subst hfe
        exact ⟨_, by rw [strApp_data, strApp_data, List.append_assoc]⟩

theorem addToGroup_ne_nil (c : String) (f : FunctionInfo) :
    ∀ l, addToGroup c f l ≠ [] := by
  intro l
  cases l with
  | nil => simp [addToGroup]
  | cons p rest =>
    rcases p with ⟨n, fs⟩
    simp only [addToGroup]
    split <;> simp

theorem foldl_groupStep_fst_ne :
    ∀ (l : List FunctionInfo)
      (acc : List (String × List FunctionInfo) × List FunctionInfo),
      acc.1 ≠ [] → (List.foldl groupStep acc l).1 ≠ [] := by
  intro l
  induction l with
  | nil => intro acc h; exact h
  | cons f t ih =>
    intro acc h
    rw [List.foldl_cons]
    apply ih
    unfold groupStep
    split
    · exact addToGroup_ne_nil _ _ _
    · exact h

theorem foldl_groupStep_dotted :
    ∀ (l : List FunctionInfo)
      (acc : List (String × List FunctionInfo) × List FunctionInfo),
      (∃ f ∈ l, containsDot f.name = true) →
      (List.foldl groupStep acc l).1 ≠ [] := by
  intro l
  induction l with
  | nil => intro acc h; rcases h with ⟨f, hf, _⟩; cases hf
  | cons g t ih =>
    intro acc h
    rw [List.foldl_cons]
    rcases h with ⟨f, hf, hd⟩
    rcases List.mem_cons.mp hf with hf | hf
    · subst hf
      apply foldl_groupStep_fst_ne
      unfold groupStep
      rw [if_pos hd]
      exact addToGroup_ne_nil _ _ _
    · exact ih _ ⟨f, hf, hd⟩

/-- A dotted name anywhere in the list forces at least one class group. -/
theorem groupSplit_classes_ne {l : List FunctionInfo}
    (h : ∃ f ∈ l, containsDot f.name = true) : (groupSplit l).1 ≠ [] :=
  foldl_groupStep_dotted l ([], []) h

theorem foldl_groupStep_undotted :
    ∀ (l : List FunctionInfo)
      (acc : List (String × List FunctionInfo) × List FunctionInfo),
      (∀ f ∈ l, containsDot f.name = false) →
      List.foldl groupStep acc l = (acc.1, acc.2 ++ l) := by
  intro l
  induction l with
  | nil => intro acc _; simp
  | cons g t ih =>
    intro acc h
    rw [List.foldl_cons]
    have hg : containsDot g.name = false := h g (List.mem_cons_self g t)
    have hstep : groupStep acc g = (acc.1, acc.2 ++ [g]) := by
      unfold groupStep
      rw [if_neg (by rw [hg]; exact Bool.false_ne_true)]
    rw [hstep, ih _ (fun f hf => h f (List.mem_cons_of_mem g hf))]
    simp

/-- With no dotted name the grouping produces no class groups and keeps the
list as standalone entries, in order. -/
theorem groupSplit_undotted {l : List FunctionInfo}
    (h : ∀ f ∈ l, containsDot f.name = false) : groupSplit l = ([], l) := by
  unfold groupSplit
  rw [foldl_groupStep_undotted l ([], []) h]
  simp

/-- Mapping a function that special-cases the last element. -/
theorem map_last_cond {α β : Type} [DecidableEq α] :
    ∀ (l : List α), l.Nodup → ∀ (A B : α → β),
      (l.map fun x => if l.getLast? = some x then A x else B x) =
        l.dropLast.map B ++ (l.getLast?.map A).toList := by
  intro l
  induction l with
  | nil => intro _ A B; rfl
  | cons x t ih =>
    intro hnd A B
    cases t with
    | nil => simp
    | cons y s =>
      simp only [List.getLast?_cons_cons]
      rw [List.map_cons]
      have hx : ¬ ((y :: s).getLast? = some x) := by
        intro he
        exact (List.nodup_cons.mp hnd).1 (getLast?_mem' he)
      rw [if_neg hx, ih (List.nodup_cons.mp hnd).2 A B,
        List.dropLast_cons₂, List.map_cons, List.cons_append]

/-- If some declaration name is dotted, no line of the rendered declarations
carries the corner connector of the outer level (class-group headers always
use the branch connector, and so does every standalone entry when class
groups are present). -/
theorem ffat_noCorner : ∀ (fuel : Nat) (funcs : List FunctionInfo)
    (indent : String), (∃ f ∈ funcs, containsDot f.name = true) →
    (ffatAux fuel funcs indent).filter (cornerLine indent) = [] := by
  intro fuel funcs indent hdot
  apply List.filter_eq_nil_iff.mpr
  intro a ha
  cases fuel with
  | zero => simp [ffatAux] at ha
  | succ n =>
    have hne : funcs ≠ [] := by
      rcases hdot with ⟨f, hf, _⟩
      intro hh
      subst hh
      cases hf
    simp only [ffatAux, if_neg hne] at ha
    rcases List.mem_append.mp ha with ha | ha
    · rcases List.mem_flatMap.mp ha with ⟨p, _, hmem⟩
      rcases List.mem_cons.mp hmem with h | h
      · subst h
        simp [cornerLine_branch_false]
      · have hs := ffatAux_shape n p.2 (indent ++ "│   ") a h
        simp [cornerLine_false_of_cont indent "│   " (Or.inr rfl) a hs]
    · rcases List.mem_map.mp ha with ⟨f, _, hfe⟩
      subst hfe
      have hcls : (groupSplit (List.insertionSort (keyLe fiKey) funcs)).1 ≠ [] := by
        apply groupSplit_classes_ne
        rcases hdot with ⟨f0, hf0, hd0⟩
        exact ⟨f0,
          ((List.perm_insertionSort (keyLe fiKey) funcs).mem_iff).mpr hf0, hd0⟩
      rw [if_neg (fun hcond => hcls hcond.2)]
      simp [cornerLine_branch_false]

theorem length_le_treeSizeL :
    ∀ l : List (String × TreeNode), l.length ≤ treeSizeL l := by
  intro l
  induction l with
  | nil => simp [treeSizeL]
  | cons p rest ih =>
    rw [treeSizeL_cons, List.length_cons]
    have h1 : 1 ≤ esizeTN p := by
      rcases p with ⟨n, c⟩
      cases c <;> simp [esizeTN]
    omega

/-- The connector lines of `format_tree_with_outlines` at the outer level are
exactly the sorted sibling headers, branch connectors on all but the last and
the corner connector on the last. -/
theorem formatTreeWithOutlinesLines_filter_conn
    (tree : List (String × TreeNode)) (indent : String) (hne : tree ≠ []) :
    (formatTreeWithOutlinesLines tree indent).filter (connLine indent) =
      (List.insertionSort (keyLe fstKey) tree).dropLast.map
        (fun p => indent ++ "├── " ++ p.1) ++
      ((List.insertionSort (keyLe fstKey) tree).getLast?.map
        (fun p => indent ++ "└── " ++ p.1)).toList := by
  cases tree with
  | nil => exact absurd rfl hne
  | cons x xs =>
    apply ftwoAux_filter_conn
    rw [(List.perm_insertionSort (keyLe fstKey) (x :: xs)).length_eq]
    have h := length_le_treeSizeL (x :: xs)
    omega

/-- With no dotted names (no class groups), the declaration renderer gives
every sorted entry except the last the branch connector and the last the
corner connector. -/
theorem ffat_noClasses_filter (funcs : List FunctionInfo) (indent : String)
    (hne : funcs ≠ []) (hund : ∀ f ∈ funcs, containsDot f.name = false)
    (hnodup : (funcs.map fiKey).Nodup) :
    (formatFunctionsAsTreeLines funcs indent).filter (connLine indent) =
      (List.insertionSort (keyLe fiKey) funcs).dropLast.map
        (fun f => indent ++ "├── " ++ fiDisplay f) ++
      ((List.insertionSort (keyLe fiKey) funcs).getLast?.map
        (fun f => indent ++ "└── " ++ fiDisplay f)).toList := by
  have hperm := List.perm_insertionSort (keyLe fiKey) funcs
  have hundS : ∀ f ∈ List.insertionSort (keyLe fiKey) funcs,
      containsDot f.name = false :=
    fun f hf => hund f (hperm.mem_iff.mp hf)
  have hgs : groupSplit (List.insertionSort (keyLe fiKey) funcs) =
      ([], List.insertionSort (keyLe fiKey) funcs) := groupSplit_undotted hundS
  have hnodupS : (List.insertionSort (keyLe fiKey) funcs).Nodup :=
    hperm.nodup_iff.mpr (List.Nodup.of_map fiKey hnodup)
  unfold formatFunctionsAsTreeLines
  simp only [ffatAux, if_neg hne]
  rw [hgs]
  dsimp only
  rw [show List.insertionSort (keyLe fstKey)
    ([] : List (String × List FunctionInfo)) = [] from rfl]
  simp only [List.flatMap_nil, List.nil_append]
  have hmapeq :
      (List.insertionSort (keyLe fiKey) funcs).map
        (fun f => indent ++
          (if (List.insertionSort (keyLe fiKey) funcs).getLast? = some f ∧
              True then "└── "
           else "├── ") ++ fiDisplay f) =
      (List.insertionSort (keyLe fiKey) funcs).map
        (fun f =>
          if (List.insertionSort (keyLe fiKey) funcs).getLast? = some f then
            indent ++ "└── " ++ fiDisplay f
          else indent ++ "├── " ++ fiDisplay f) := by
    apply List.map_congr_left
    intro f _
    by_cases hc : (List.insertionSort (keyLe fiKey) funcs).getLast? = some f
    · rw [if_pos ⟨hc, trivial⟩, if_pos hc]
    · rw [if_neg (fun hcond => hc hcond.1), if_neg hc]
  rw [hmapeq, map_last_cond _ hnodupS]
  apply List.filter_eq_self.mpr
  intro a ha
  rcases List.mem_append.mp ha with ha | ha
  · rcases List.mem_map.mp ha with ⟨f, _, hfe⟩
    subst hfe
    exact connLine_branch _ _
  · cases hgl : (List.insertionSort (keyLe fiKey) funcs).getLast? with
    | none => rw [hgl] at ha; simp at ha
    | some f =>
      rw [hgl] at ha
      simp at ha
      subst ha
      exact connLine_corner _ _

/-- Claim C9 counterexample: rendering the declarations `A.b` and `c` of one
file puts the branch connector `├── ` on the last sibling `c` and produces no
corner connector `└── ` at that level at all — `format_functions_as_tree`
hard-codes `├── ` for class headers and suppresses `└── ` for standalone
functions whenever a class group exists (`and not classes`). -/
theorem claim_C9_counterexample :
    formatFunctionsAsTreeLines [{ name := "A.b" }, { name := "c" }] "" =
      ["├── A", "│   └── b()", "├── c()"] ∧
    (formatFunctionsAsTreeLines [{ name := "A.b" }, { name := "c" }] "").filter
      (cornerLine "") = [] :=
  ⟨by decide, by decide⟩

/-- Claim C9 (amended): the branch/corner connector rule holds at the
directory/file levels of `format_tree_with_outlines` — among the lines
carrying a connector of a given level, every sorted sibling except the last
gets `├── ` and the last gets `└── ` — and at the declaration level of
`format_functions_as_tree` only when no declaration name contains a dot; as
soon as a class group exists, the corner connector never appears at that
declaration level (class headers are hard-coded to `├── ` with a `│   `
continuation and standalone functions are barred from `└── ` by the
`and not classes` guard). -/
theorem claim_C9_amended :
    (∀ (tree : List (String × TreeNode)) (indent : String), tree ≠ [] →
      (formatTreeWithOutlinesLines tree indent).filter (connLine indent) =
        (List.insertionSort (keyLe fstKey) tree).dropLast.map
          (fun p => indent ++ "├── " ++ p.1) ++
        ((List.insertionSort (keyLe fstKey) tree).getLast?.map
          (fun p => indent ++ "└── " ++ p.1)).toList) ∧
    (∀ (funcs : List FunctionInfo) (indent : String),
      (∃ f ∈ funcs, containsDot f.name = true) →
      (formatFunctionsAsTreeLines funcs indent).filter (cornerLine indent) =
        []) ∧
    (∀ (funcs : List FunctionInfo) (indent : String),
      funcs ≠ [] → (∀ f ∈ funcs, containsDot f.name = false) →
      (funcs.map fiKey).Nodup →
      (formatFunctionsAsTreeLines funcs indent).filter (connLine indent) =
        (List.insertionSort (keyLe fiKey) funcs).dropLast.map
          (fun f => indent ++ "├── " ++ fiDisplay f) ++
        ((List.insertionSort (keyLe fiKey) funcs).getLast?.map
          (fun f => indent ++ "└── " ++ fiDisplay f)).toList) :=
  ⟨fun tree indent h => formatTreeWithOutlinesLines_filter_conn tree indent h,
   fun funcs indent h => ffat_noCorner _ funcs indent h,
   fun funcs indent h1 h2 h3 => ffat_noClasses_filter funcs indent h1 h2 h3⟩

theorem claim_C9_witness :
    ((formatTreeWithOutlinesLines [("b", TreeNode.file ""),
        ("a", TreeNode.file "")] "").filter (connLine "") =
      (List.insertionSort (keyLe fstKey) [("b", TreeNode.file ""),
        ("a", TreeNode.file "")]).dropLast.map
          (fun p => "" ++ "├── " ++ p.1) ++
      ((List.insertionSort (keyLe fstKey) [("b", TreeNode.file ""),
        ("a", TreeNode.file "")]).getLast?.map
          (fun p => "" ++ "└── " ++ p.1)).toList) ∧
    ((formatFunctionsAsTreeLines [{ name := "A.b" }, { name := "c" }] "").filter
      (cornerLine "") = []) ∧
    ((formatFunctionsAsTreeLines [{ name := "b" }, { name := "a" }] "").filter
      (connLine "") =
      (List.insertionSort (keyLe fiKey)
        [{ name := "b" }, { name := "a" }]).dropLast.map
          (fun f => "" ++ "├── " ++ fiDisplay f) ++
      ((List.insertionSort (keyLe fiKey)
        [{ name := "b" }, { name := "a" }]).getLast?.map
          (fun f => "" ++ "└── " ++ fiDisplay f)).toList) :=
  ⟨claim_C9_amended.1 _ "" (List.cons_ne_nil _ _),
   claim_C9_amended.2.1 _ "" (by decide),
   claim_C9_amended.2.2 _ "" (List.cons_ne_nil _ _) (by decide) (by decide)⟩

end Cpai
